import Mathlib

/-!
Verification of the Neuro knowledge-graph core (graph/knowledge_graph.py):
the entity model (Node, Edge, EdgeType), the graph store operations
(add_node, add_edge, update_node, prune_node, prune_failed_nodes, get_node),
the goal resolver (traverse_for_goal) and the persistence codec
(save_to_json / load_from_json), together with theorems settling the
specification claims about them.

Modelling conventions: Python dicts become insertion-ordered association
lists; the loosely typed metadata values become the closed `Value` type;
object references inside edges become the (immutable) node-id strings they
denote; functions that raise become `Option`-valued; the recursive
traversal is written with an explicit fuel argument (the Python recursion
terminates because the visited set grows, and the fuel chosen in
`resolveState` is proved sufficient by the bookkeeping in the theorems).
-/

namespace Neuro

/-- A metadata value in a node's data bag (Python: loosely typed dict values). -/
inductive Value where
  | bool : Bool → Value
  | num : Int → Value
  | str : String → Value
deriving DecidableEq, Repr

/-- The four edge types (Python: class EdgeType(Enum)). -/
inductive EdgeType where
  | AND
  | OR
  | IMPLIES
  | NOT
deriving DecidableEq, Repr

/-- The symbolic name of an edge type (Python: EdgeType.value). -/
def EdgeType.value : EdgeType → String
  | .AND => "AND"
  | .OR => "OR"
  | .IMPLIES => "IMPLIES"
  | .NOT => "NOT"

/-- Looking an edge type up by its symbolic name (Python: EdgeType(s),
which raises ValueError on an unrecognized symbol). -/
def edgeTypeOfString (s : String) : Option EdgeType :=
  if s = "AND" then some .AND
  else if s = "OR" then some .OR
  else if s = "IMPLIES" then some .IMPLIES
  else if s = "NOT" then some .NOT
  else none

/-- Python dict read d.get(k) on a metadata bag. -/
def dataGet (d : List (String × Value)) (k : String) : Option Value :=
  (d.find? (fun p => p.1 == k)).map Prod.snd

/-- Python dict write d[k] = v: overwrite in place when the key exists
(keys are unique in a dict, so replacing the first occurrence suffices),
append otherwise. -/
def dictSet : List (String × Value) → String → Value → List (String × Value)
  | [], k, v => [(k, v)]
  | p :: rest, k, v => if p.1 == k then (k, v) :: rest else p :: dictSet rest k v

/-- Python dict.update(d2): assign every key of d2 in order. -/
def dictUpdate (d d2 : List (String × Value)) : List (String × Value) :=
  d2.foldl (fun acc p => dictSet acc p.1 p.2) d

/-- Python truthiness of a value read from a data bag with
data.get(key, False): absent, False, 0 and "" are falsy. -/
def truthy : Option Value → Bool
  | none => false
  | some (.bool b) => b
  | some (.num n) => n != 0
  | some (.str s) => s != ""

/-- A directed edge. The Python Edge stores references to the source and
target Node objects; since node ids are immutable, the reference is
modelled by the id it resolves to at creation time. -/
structure Edge where
  source : String
  target : String
  type : EdgeType
deriving DecidableEq, Repr

/-- A node: id, free-form type tag, metadata bag, and the list of outgoing
edges it owns (insertion-ordered). -/
structure Node where
  id : String
  type : String
  data : List (String × Value)
  edges : List Edge
deriving DecidableEq, Repr

/-- The graph store: the Python dict from node id to Node, modelled as an
insertion-ordered association list. -/
structure KnowledgeGraph where
  nodes : List (String × Node)
deriving DecidableEq, Repr

/-- KnowledgeGraph.get_node: dict lookup, none when absent. -/
def get_node (g : KnowledgeGraph) (node_id : String) : Option Node :=
  (g.nodes.find? (fun p => p.1 == node_id)).map Prod.snd

/-- KnowledgeGraph.add_node: create the node when the id is absent,
otherwise leave the graph alone; either way return the node stored at the
id. -/
def add_node (g : KnowledgeGraph) (node_id node_type : String)
    (data : List (String × Value) := []) : KnowledgeGraph × Node :=
  match get_node g node_id with
  | some n => (g, n)
  | none =>
    let n : Node := ⟨node_id, node_type, data, []⟩
    (⟨g.nodes ++ [(node_id, n)]⟩, n)

/-- KnowledgeGraph.add_edge: look both endpoints up (a missing id raises
KeyError in Python, modelled as none) and append the new edge to the
source node's outgoing list. -/
def add_edge (g : KnowledgeGraph) (source_id target_id : String)
    (edge_type : EdgeType) : Option KnowledgeGraph :=
  match get_node g source_id, get_node g target_id with
  | some sn, some tn =>
    let e : Edge := ⟨sn.id, tn.id, edge_type⟩
    some ⟨g.nodes.map (fun p =>
      if p.1 == source_id then (p.1, { p.2 with edges := p.2.edges ++ [e] }) else p)⟩
  | _, _ => none

/-- KnowledgeGraph.update_node: ValueError (none) when the id is absent;
otherwise replace the type when the node_type argument is truthy (Python:
`if node_type:` — None and "" are skipped) and merge the data argument
into the bag when it is truthy (Python: `if data:` — None and {} are
skipped). -/
def update_node (g : KnowledgeGraph) (node_id : String)
    (node_type : Option String := none)
    (data : Option (List (String × Value)) := none) : Option KnowledgeGraph :=
  match get_node g node_id with
  | none => none
  | some _ =>
    some ⟨g.nodes.map (fun p =>
      if p.1 == node_id then
        (p.1,
          { p.2 with
            type := match node_type with
              | some t => if t != "" then t else p.2.type
              | none => p.2.type
            data := match data with
              | some d => if d != [] then dictUpdate p.2.data d else p.2.data
              | none => p.2.data })
      else p)⟩

/-- KnowledgeGraph.prune_node: early return when the id is absent;
otherwise drop, from every node, the outgoing edges whose target is the
pruned id, then delete the node itself. -/
def prune_node (g : KnowledgeGraph) (node_id : String) : KnowledgeGraph :=
  if g.nodes.any (fun p => p.1 == node_id) then
    ⟨(g.nodes.map (fun p =>
        (p.1, { p.2 with edges := p.2.edges.filter (fun e => e.target != node_id) }))).filter
      (fun p => p.1 != node_id)⟩
  else g

/-- The ids collected by KnowledgeGraph.prune_failed_nodes: nodes whose
data bag binds "failed" to exactly the boolean True (Python: `is True`). -/
def failedIds (g : KnowledgeGraph) : List String :=
  (g.nodes.filter (fun p => dataGet p.2.data "failed" == some (Value.bool true))).map Prod.fst

/-- KnowledgeGraph.prune_failed_nodes: prune each collected id in turn. -/
def prune_failed_nodes (g : KnowledgeGraph) : KnowledgeGraph :=
  (failedIds g).foldl prune_node g

/-- The incoming-edge discovery scan of traverse_for_goal: every node of
the graph in iteration order, every outgoing edge, keeping the pairs whose
target is the node under consideration, paired with their owning (source)
node. -/
def incomingEdges (g : KnowledgeGraph) (nid : String) : List (Edge × Node) :=
  (g.nodes.map Prod.snd).flatMap (fun nd =>
    nd.edges.filterMap (fun e => if e.target == nid then some (e, nd) else none))

/-- The AND/IMPLIES partition of the incoming pairs. -/
def andIncoming (g : KnowledgeGraph) (nid : String) : List (Edge × Node) :=
  (incomingEdges g nid).filter (fun p => p.1.type == .AND || p.1.type == .IMPLIES)

/-- The OR partition of the incoming pairs. -/
def orIncoming (g : KnowledgeGraph) (nid : String) : List (Edge × Node) :=
  (incomingEdges g nid).filter (fun p => p.1.type == .OR)

/-- The NOT partition of the incoming pairs. -/
def notIncoming (g : KnowledgeGraph) (nid : String) : List (Edge × Node) :=
  (incomingEdges g nid).filter (fun p => p.1.type == .NOT)

/-- Code-point lexicographic comparison of character lists; this is the
order Python's sorted() uses on the id strings. -/
def charListLe : List Char → List Char → Bool
  | [], _ => true
  | _ :: _, [] => false
  | a :: as, b :: bs => if a < b then true else if b < a then false else charListLe as bs

/-- Lexicographic comparison of strings by code points (Python string <=). -/
def strLe (a b : String) : Bool := charListLe a.data b.data

/-- Stable insertion into a list sorted by the source node's id. -/
def orderedInsertByNodeId (x : Edge × Node) :
    List (Edge × Node) → List (Edge × Node)
  | [] => [x]
  | y :: ys => if strLe x.2.id y.2.id then x :: y :: ys else y :: orderedInsertByNodeId x ys

/-- Stable sort of the OR pairs by source node id (Python:
sorted(or_edges, key=lambda tup: tup[1].id)). -/
def sortByNodeId : List (Edge × Node) → List (Edge × Node)
  | [] => []
  | x :: xs => orderedInsertByNodeId x (sortByNodeId xs)

/-- The OR pair the resolver recurses into: the head of the stable sort by
source node id (Python: sorted(or_edges, ...)[0], guarded by `if or_edges:`). -/
def chooseOr (l : List (Edge × Node)) : Option (Edge × Node) :=
  (sortByNodeId l).head?

/-- The state threaded through the recursive dfs of traverse_for_goal: the
graph being read (never written), the visited-for-this-pass set, and the
output plan being accumulated. -/
structure DfsState where
  graph : KnowledgeGraph
  visited : List String
  path : List String
deriving DecidableEq, Repr

/-- The inner dfs of KnowledgeGraph.traverse_for_goal, with explicit fuel.
Visited nodes return immediately; otherwise the node is marked visited,
its incoming pairs are discovered and partitioned, a truthy "visited"
metadata flag on any NOT source blocks the node (no recursion, no append),
all AND/IMPLIES sources are resolved in discovery order, one OR source —
the lexicographically smallest id — is resolved, and finally the node id
is appended to the plan. -/
def dfs : Nat → Node → DfsState → DfsState
  | 0, _, s => s
  | fuel + 1, node, s =>
    if node.id ∈ s.visited then s
    else
      let s1 : DfsState := ⟨s.graph, node.id :: s.visited, s.path⟩
      let and_edges := andIncoming s.graph node.id
      let or_edges := orIncoming s.graph node.id
      let not_edges := notIncoming s.graph node.id
      if not_edges.any (fun p => truthy (dataGet p.2.data "visited")) then s1
      else
        let s2 := and_edges.foldl (fun st p => dfs fuel p.2 st) s1
        let s3 := match chooseOr or_edges with
          | some p => dfs fuel p.2 s2
          | none => s2
        ⟨s3.graph, s3.visited, s3.path ++ [node.id]⟩

/-- Running traverse_for_goal: fresh visited set and path, dfs from the
goal node when it exists. The fuel (node count + 1) is enough for the
recursion never to be cut short, because each non-trivial call visits a
previously unvisited node of the graph. -/
def resolveState (g : KnowledgeGraph) (goal_id : String) : DfsState :=
  match get_node g goal_id with
  | some n => dfs (g.nodes.length + 1) n ⟨g, [], []⟩
  | none => ⟨g, [], []⟩

/-- KnowledgeGraph.traverse_for_goal: the resolved plan. -/
def traverse_for_goal (g : KnowledgeGraph) (goal_id : String) : List String :=
  (resolveState g goal_id).path

/-- One serialized node of the JSON document. -/
structure SavedNode where
  id : String
  type : String
  data : List (String × Value)
deriving DecidableEq, Repr

/-- One serialized edge of the JSON document; the type is stored as its
symbolic name. -/
structure SavedEdge where
  source : String
  target : String
  type : String
deriving DecidableEq, Repr

/-- The JSON document written by save_to_json. -/
structure SavedGraph where
  nodes : List SavedNode
  edges : List SavedEdge
deriving DecidableEq, Repr

/-- KnowledgeGraph.save_to_json: nodes in store iteration order, then all
edges in node-iteration-then-insertion order. -/
def save_to_json (g : KnowledgeGraph) : SavedGraph :=
  { nodes := g.nodes.map (fun p => ⟨p.2.id, p.2.type, p.2.data⟩)
    edges := (g.nodes.map Prod.snd).flatMap (fun nd =>
      nd.edges.map (fun e => ⟨e.source, e.target, e.type.value⟩)) }

/-- The edge-loading loop of load_from_json: parse each edge type symbol
(ValueError on an unknown symbol) and add the edge (KeyError when an
endpoint is absent). -/
def loadEdges : List SavedEdge → KnowledgeGraph → Option KnowledgeGraph
  | [], g => some g
  | e :: rest, g =>
    match edgeTypeOfString e.type with
    | none => none
    | some ty =>
      match add_edge g e.source e.target ty with
      | none => none
      | some g' => loadEdges rest g'

/-- KnowledgeGraph.load_from_json: clear the store, add every saved node
via add_node, then add every saved edge. -/
def load_from_json (s : SavedGraph) : Option KnowledgeGraph :=
  let g1 := s.nodes.foldl (fun g n => (add_node g n.id n.type n.data).1) ⟨[]⟩
  loadEdges s.edges g1

/-- The edges the loading loop attaches to the node stored at key k: the
saved edges whose source is k, parsed back into Edge values. -/
def restoredEdges (es : List SavedEdge) (k : String) : List Edge :=
  (es.filter (fun e2 => e2.source == k)).filterMap
    (fun e2 => (edgeTypeOfString e2.type).map (fun ty => ⟨e2.source, e2.target, ty⟩))

/-- The key list of the store, in iteration order. -/
def keys (g : KnowledgeGraph) : List String := g.nodes.map Prod.fst

/-- Data-model invariant: node ids are unique within a graph. -/
def UniqueKeys (g : KnowledgeGraph) : Prop := (keys g).Nodup

/-- Data-model invariant: each node's id field equals its store key. -/
def KeysMatch (g : KnowledgeGraph) : Prop := ∀ p ∈ g.nodes, p.2.id = p.1

/-- Data-model invariant: every edge records the node that owns it as its
source. -/
def SrcOwner (g : KnowledgeGraph) : Prop :=
  ∀ p ∈ g.nodes, ∀ e ∈ p.2.edges, e.source = p.2.id

/-- Data-model invariant: every edge's target resolves to a node present
in the store. -/
def TargetsPresent (g : KnowledgeGraph) : Prop :=
  ∀ p ∈ g.nodes, ∀ e ∈ p.2.edges, ∃ q ∈ g.nodes, q.1 = e.target

/-- The directed step relation of the graph: some stored node with id a
owns an edge whose target is b. -/
def EdgeRelG (g : KnowledgeGraph) (a b : String) : Prop :=
  ∃ p ∈ g.nodes, ∃ e ∈ p.2.edges, p.2.id = a ∧ e.target = b

/-- Reachability along stored edges. -/
def Reaches (g : KnowledgeGraph) : String → String → Prop :=
  Relation.ReflTransGen (EdgeRelG g)

/-- No directed cycle: no edge a -> b together with a path b ->* a. -/
def Acyclic (g : KnowledgeGraph) : Prop :=
  ∀ a b, EdgeRelG g a b → Reaches g b a → False

/-- An AND or IMPLIES edge from source id src into target id tgt exists
somewhere in the graph. -/
def DepAI (g : KnowledgeGraph) (src tgt : String) : Prop :=
  ∃ p ∈ g.nodes, ∃ e ∈ p.2.edges,
    e.source = src ∧ e.target = tgt ∧ (e.type = .AND ∨ e.type = .IMPLIES)

/-- a occurs in l strictly before b (positions of first occurrences). -/
def appearsBefore (l : List String) (a b : String) : Prop :=
  a ∈ l ∧ b ∈ l ∧ l.indexOf a < l.indexOf b

/-- How many graph keys a visited list has not yet covered; the measure
that shows the dfs fuel is sufficient. -/
def unvisitedCount (g : KnowledgeGraph) (v : List String) : Nat :=
  ((keys g).filter (fun k => !v.contains k)).length

/-- How one dfs call may change the state: the graph is untouched, the
visited set only grows, the path is only appended to, and every appended
id was unvisited before the call and is visited after it. -/
def Evolves (s t : DfsState) : Prop :=
  t.graph = s.graph ∧
  (∀ x, x ∈ s.visited → x ∈ t.visited) ∧
  (∃ suf, t.path = s.path ++ suf) ∧
  (∀ x, x ∈ t.path → x ∈ s.path ∨ (x ∉ s.visited ∧ x ∈ t.visited))

/-- The dependency-first invariant maintained by the dfs: every id on the
path is visited; for every AND/IMPLIES edge whose target is on the path,
the source id is visited, and precedes the target wherever it is also on
the path; and likewise for the chosen OR source of any id on the path. -/
def Inv (g : KnowledgeGraph) (s : DfsState) : Prop :=
  (∀ x ∈ s.path, x ∈ s.visited) ∧
  (∀ src tgt, DepAI g src tgt → tgt ∈ s.path →
    src ∈ s.visited ∧ (src ∈ s.path → appearsBefore s.path src tgt)) ∧
  (∀ tgt p, chooseOr (orIncoming g tgt) = some p → tgt ∈ s.path →
    p.2.id ∈ s.visited ∧ (p.2.id ∈ s.path → appearsBefore s.path p.2.id tgt))

instance (l : List String) (a b : String) : Decidable (appearsBefore l a b) := by
  unfold appearsBefore; infer_instance

instance (g : KnowledgeGraph) (s t : String) : Decidable (DepAI g s t) := by
  unfold DepAI; infer_instance

instance (g : KnowledgeGraph) (a b : String) : Decidable (EdgeRelG g a b) := by
  unfold EdgeRelG; infer_instance

instance (g : KnowledgeGraph) : Decidable (UniqueKeys g) := by
  unfold UniqueKeys; infer_instance

instance (g : KnowledgeGraph) : Decidable (KeysMatch g) := by
  unfold KeysMatch; infer_instance

instance (g : KnowledgeGraph) : Decidable (SrcOwner g) := by
  unfold SrcOwner; infer_instance

instance (g : KnowledgeGraph) : Decidable (TargetsPresent g) := by
  unfold TargetsPresent; infer_instance

/-- The spec's linear chain A -IMPLIES-> B -IMPLIES-> C. -/
def chainG : KnowledgeGraph :=
  ⟨[("A", ⟨"A", "event", [], [⟨"A", "B", .IMPLIES⟩]⟩),
    ("B", ⟨"B", "event", [], [⟨"B", "C", .IMPLIES⟩]⟩),
    ("C", ⟨"C", "event", [], []⟩)]⟩

/-- The spec's OR example: coal and charcoal are OR prerequisites of torch. -/
def orG : KnowledgeGraph :=
  ⟨[("coal", ⟨"coal", "item", [], [⟨"coal", "torch", .OR⟩]⟩),
    ("charcoal", ⟨"charcoal", "item", [], [⟨"charcoal", "torch", .OR⟩]⟩),
    ("torch", ⟨"torch", "event", [], []⟩)]⟩

/-- A NOT blocker whose "visited" metadata is the number 1: truthy in
Python but not the boolean True. -/
def notG : KnowledgeGraph :=
  ⟨[("a", ⟨"a", "state", [("visited", .num 1)], [⟨"a", "b", .NOT⟩]⟩),
    ("b", ⟨"b", "event", [], []⟩)]⟩

/-- A NOT blocker whose "visited" metadata is the boolean true. -/
def notG2 : KnowledgeGraph :=
  ⟨[("a", ⟨"a", "state", [("visited", .bool true)], [⟨"a", "b", .NOT⟩]⟩),
    ("b", ⟨"b", "event", [], []⟩)]⟩

/-- A two-node IMPLIES cycle. -/
def cycleG : KnowledgeGraph :=
  ⟨[("a", ⟨"a", "event", [], [⟨"a", "b", .IMPLIES⟩]⟩),
    ("b", ⟨"b", "event", [], [⟨"b", "a", .IMPLIES⟩]⟩)]⟩

/-- A single node with type "old", used to exercise update_node. -/
def oldG : KnowledgeGraph := ⟨[("a", ⟨"a", "old", [("k1", .num 1)], []⟩)]⟩

/-- A graph mixing failed flags: exactly true, the truthy number 1, false,
and no flag at all, with edges into the exactly-true node. -/
def failG : KnowledgeGraph :=
  ⟨[("x", ⟨"x", "e", [("failed", .bool true)], []⟩),
    ("y", ⟨"y", "e", [("failed", .num 1)], [⟨"y", "x", .AND⟩]⟩),
    ("z", ⟨"z", "e", [("failed", .bool false)], [⟨"z", "y", .OR⟩]⟩),
    ("w", ⟨"w", "e", [], []⟩)]⟩

theorem get_node_some_iff {g : KnowledgeGraph} {i : String} {n : Node} :
    get_node g i = some n ↔ g.nodes.find? (fun p => p.1 == i) = some (i, n) := by
  unfold get_node
  cases hf : g.nodes.find? (fun p => p.1 == i) with
  | none => simp
  | some p =>
    obtain ⟨k, nd⟩ := p
    have hp := List.find?_some hf
    simp only [beq_iff_eq] at hp
    subst hp
    simp [Prod.ext_iff]

theorem find?_filter_of_imp {α : Type} (l : List α) (p q : α → Bool)
    (h : ∀ x, p x = true → q x = true) : (l.filter q).find? p = l.find? p := by
  induction l with
  | nil => rfl
  | cons a l ih =>
    by_cases hq : q a = true
    · rw [List.filter_cons_of_pos hq]
      by_cases hp : p a = true
      · rw [List.find?_cons_of_pos _ hp, List.find?_cons_of_pos _ hp]
      · rw [List.find?_cons_of_neg _ hp, List.find?_cons_of_neg _ hp]
        exact ih
    · have hp : ¬ p a = true := fun hc => hq (h a hc)
      rw [List.filter_cons_of_neg hq, List.find?_cons_of_neg _ hp]
      exact ih

theorem indexOf_append_of_mem {a : String} {l l2 : List String} (h : a ∈ l) :
    (l ++ l2).indexOf a = l.indexOf a := by
  induction l with
  | nil => simp at h
  | cons b l ih =>
    simp only [List.cons_append, List.indexOf_cons]
    cases hba : (b == a) with
    | true => rfl
    | false =>
      have hmem : a ∈ l := by
        rcases List.mem_cons.mp h with heq | hm
        · subst heq
          simp at hba
        · exact hm
      simp [ih hmem]

theorem indexOf_append_self {a : String} {l : List String} (h : a ∉ l) :
    (l ++ [a]).indexOf a = l.length := by
  induction l with
  | nil => simp [List.indexOf_cons]
  | cons b l ih =>
    have hba : (b == a) = false := by
      simp only [beq_eq_false_iff_ne]
      exact fun hc => h (hc ▸ List.mem_cons_self b l)
    have hmem : a ∉ l := fun hc => h (List.mem_cons_of_mem b hc)
    simp [List.indexOf_cons, hba, ih hmem]

theorem indexOf_lt_length_of_mem {a : String} {l : List String} (h : a ∈ l) :
    l.indexOf a < l.length :=
  List.indexOf_lt_length.mpr h

theorem appearsBefore_append {l : List String} {a b : String}
    (h : appearsBefore l a b) (l2 : List String) : appearsBefore (l ++ l2) a b := by
  obtain ⟨ha, hb, hlt⟩ := h
  refine ⟨List.mem_append_left _ ha, List.mem_append_left _ hb, ?_⟩
  rw [indexOf_append_of_mem ha, indexOf_append_of_mem hb]
  exact hlt

theorem appearsBefore_append_last {l : List String} {a b : String}
    (ha : a ∈ l) (hb : b ∉ l) : appearsBefore (l ++ [b]) a b := by
  refine ⟨List.mem_append_left _ ha, List.mem_append_right _ (by simp), ?_⟩
  rw [indexOf_append_of_mem ha, indexOf_append_self hb]
  exact indexOf_lt_length_of_mem ha

/-- Claim C9: resolving a goal id that is absent from the graph yields the
empty plan (and, the function being total, never fails). -/
theorem claim_C9 (g : KnowledgeGraph) (goal_id : String)
    (h : get_node g goal_id = none) : traverse_for_goal g goal_id = [] := by
  unfold traverse_for_goal resolveState
  rw [h]

theorem claim_C9_witness :
    get_node chainG "does-not-exist" = none ∧
    traverse_for_goal chainG "does-not-exist" = [] :=
  ⟨by decide, claim_C9 chainG "does-not-exist" (by decide)⟩

/-- Claim C6: add_node with an id already present returns the stored node
and leaves the graph (hence that node's type, data and edges) unchanged,
ignoring the type and data arguments; with an absent id it appends a node
carrying exactly the given id, type and data, and no edges. -/
theorem claim_C6 (g : KnowledgeGraph) (node_id node_type : String)
    (data : List (String × Value)) :
    (∀ n, get_node g node_id = some n → add_node g node_id node_type data = (g, n)) ∧
    (get_node g node_id = none →
      add_node g node_id node_type data =
        (⟨g.nodes ++ [(node_id, ⟨node_id, node_type, data, []⟩)]⟩,
          ⟨node_id, node_type, data, []⟩)) := by
  constructor
  · intro n h
    unfold add_node
    rw [h]
  · intro h
    unfold add_node
    rw [h]

theorem claim_C6_witness :
    add_node oldG "a" "new" [("k2", .num 7)] = (oldG, ⟨"a", "old", [("k1", .num 1)], []⟩) ∧
    add_node oldG "b" "fresh" [] =
      (⟨oldG.nodes ++ [("b", ⟨"b", "fresh", [], []⟩)]⟩, ⟨"b", "fresh", [], []⟩) :=
  ⟨(claim_C6 oldG "a" "new" [("k2", .num 7)]).1 ⟨"a", "old", [("k1", .num 1)], []⟩ (by decide),
   (claim_C6 oldG "b" "fresh" []).2 (by decide)⟩

/-- Claim C5: prune_node on a present id removes that node, removes from
every remaining node each outgoing edge targeting the pruned id (so no
stored edge targets it afterwards, and each surviving node keeps its
other edges and all its fields); on an absent id it is a no-op that
leaves the graph unchanged and cannot fail. -/
theorem claim_C5 (g : KnowledgeGraph) (node_id : String) :
    ((∃ n, get_node g node_id = some n) →
      get_node (prune_node g node_id) node_id = none ∧
      (∀ id2 n2, get_node (prune_node g node_id) id2 = some n2 →
        ∀ e ∈ n2.edges, e.target ≠ node_id) ∧
      (∀ id2 n2, id2 ≠ node_id → get_node g id2 = some n2 →
        get_node (prune_node g node_id) id2 =
          some { n2 with edges := n2.edges.filter (fun e => e.target != node_id) })) ∧
    (get_node g node_id = none → prune_node g node_id = g) := by
  constructor
  · rintro ⟨n, hn⟩
    have hfind := get_node_some_iff.mp hn
    have hany : g.nodes.any (fun p => p.1 == node_id) = true :=
      List.any_eq_true.mpr ⟨(node_id, n), List.mem_of_find?_eq_some hfind, by simp⟩
    unfold prune_node
    rw [if_pos hany]
    refine ⟨?_, ?_, ?_⟩
    · unfold get_node
      rw [List.find?_eq_none.mpr ?_]
      · rfl
      · intro x hx
        have hx2 := (List.mem_filter.mp hx).2
        simp only [bne_iff_ne, ne_eq, decide_eq_true_eq] at hx2
        simp only [beq_iff_eq]
        exact hx2
    · intro id2 n2 h2 e he
      unfold get_node at h2
      cases hfind2 : ((g.nodes.map (fun p =>
          (p.1, { p.2 with edges := p.2.edges.filter (fun e => e.target != node_id) }))).filter
            (fun p => p.1 != node_id)).find? (fun p => p.1 == id2) with
      | none => rw [hfind2] at h2; simp at h2
      | some pr =>
        rw [hfind2] at h2
        simp only [Option.map_some', Option.some.injEq] at h2
        have hmem := List.mem_of_find?_eq_some hfind2
        have hmem2 := (List.mem_filter.mp hmem).1
        obtain ⟨q0, _, hfq⟩ := List.mem_map.mp hmem2
        have hedges : n2.edges = q0.2.edges.filter (fun e => e.target != node_id) := by
          rw [← h2, ← hfq]
        rw [hedges] at he
        have := (List.mem_filter.mp he).2
        simpa using this
    · intro id2 n2 hne h2
      unfold get_node
      rw [find?_filter_of_imp _ _ _ (fun x hx => ?_)]
      · rw [List.find?_map]
        have hpf : ((fun p : String × Node => p.1 == id2) ∘ (fun p : String × Node =>
            (p.1, { p.2 with edges := p.2.edges.filter (fun e => e.target != node_id) }))) =
            fun p : String × Node => p.1 == id2 := rfl
        rw [hpf, get_node_some_iff.mp h2]
        rfl
      · simp only [beq_iff_eq] at hx
        simp only [bne_iff_ne, ne_eq, decide_eq_true_eq, hx]
        exact hne
  · intro h
    unfold prune_node
    rw [if_neg]
    intro hany
    obtain ⟨x, hx, hpx⟩ := List.any_eq_true.mp hany
    unfold get_node at h
    cases hfind : g.nodes.find? (fun p => p.1 == node_id) with
    | none => exact absurd hpx (List.find?_eq_none.mp hfind x hx)
    | some p => rw [hfind] at h; exact Option.noConfusion h

theorem claim_C5_witness :
    (get_node (prune_node cycleG "a") "a" = none ∧
      (∀ id2 n2, get_node (prune_node cycleG "a") id2 = some n2 →
        ∀ e ∈ n2.edges, e.target ≠ "a") ∧
      (∀ id2 n2, id2 ≠ "a" → get_node cycleG id2 = some n2 →
        get_node (prune_node cycleG "a") id2 =
          some { n2 with edges := n2.edges.filter (fun e => e.target != "a") })) ∧
    prune_node ⟨[]⟩ "a" = (⟨[]⟩ : KnowledgeGraph) :=
  ⟨(claim_C5 cycleG "a").1 ⟨⟨"a", "event", [], [⟨"a", "b", .IMPLIES⟩]⟩, by decide⟩,
   (claim_C5 ⟨[]⟩ "a").2 (by decide)⟩

theorem dataGet_cons_hit {p : String × Value} {rest : List (String × Value)}
    {k : String} (h : (p.1 == k) = true) : dataGet (p :: rest) k = some p.2 := by
  unfold dataGet
  rw [@List.find?_cons_of_pos _ (fun q => q.1 == k) p rest h]
  rfl

theorem dataGet_cons_miss {p : String × Value} {rest : List (String × Value)}
    {k : String} (h : ¬(p.1 == k) = true) : dataGet (p :: rest) k = dataGet rest k := by
  unfold dataGet
  rw [@List.find?_cons_of_neg _ (fun q => q.1 == k) p rest h]

theorem dataGet_dictSet_self (d : List (String × Value)) (k : String) (v : Value) :
    dataGet (dictSet d k v) k = some v := by
  induction d with
  | nil => simp [dictSet, dataGet]
  | cons p rest ih =>
    unfold dictSet
    by_cases h : (p.1 == k) = true
    · rw [if_pos h, dataGet_cons_hit (by simp)]
    · rw [if_neg h, dataGet_cons_miss h]
      exact ih

theorem dataGet_dictSet_ne (d : List (String × Value)) (k k2 : String) (v : Value)
    (h : k2 ≠ k) : dataGet (dictSet d k v) k2 = dataGet d k2 := by
  have hkv : ¬(((k, v) : String × Value).1 == k2) = true := by
    simp only [beq_iff_eq]
    exact fun hc => h hc.symm
  induction d with
  | nil =>
    unfold dictSet
    rw [dataGet_cons_miss hkv]
  | cons p rest ih =>
    unfold dictSet
    by_cases hpk : (p.1 == k) = true
    · rw [if_pos hpk]
      have hp : ¬(p.1 == k2) = true := by
        simp only [beq_iff_eq] at hpk ⊢
        rw [hpk]
        exact fun hc => h hc.symm
      rw [dataGet_cons_miss hkv, dataGet_cons_miss hp]
    · rw [if_neg hpk]
      by_cases hp2 : (p.1 == k2) = true
      · rw [dataGet_cons_hit hp2, dataGet_cons_hit hp2]
      · rw [dataGet_cons_miss hp2, dataGet_cons_miss hp2]
        exact ih

theorem dataGet_eq_none_of_not_mem_keys {d : List (String × Value)} {k : String}
    (h : k ∉ d.map Prod.fst) : dataGet d k = none := by
  unfold dataGet
  rw [List.find?_eq_none.mpr ?_]
  · rfl
  · intro x hx hpx
    simp only [beq_iff_eq] at hpx
    exact h (hpx ▸ List.mem_map_of_mem Prod.fst hx)

theorem dataGet_dictUpdate (d d2 : List (String × Value))
    (hnd : (d2.map Prod.fst).Nodup) (k : String) :
    dataGet (dictUpdate d d2) k =
      match dataGet d2 k with
      | some v => some v
      | none => dataGet d k := by
  induction d2 generalizing d with
  | nil => rfl
  | cons p rest ih =>
    have hnd2 := (List.nodup_cons.mp hnd).2
    have hhead := (List.nodup_cons.mp hnd).1
    have hstep : dictUpdate d (p :: rest) = dictUpdate (dictSet d p.1 p.2) rest := rfl
    rw [hstep, ih _ hnd2]
    by_cases hk : (p.1 == k) = true
    · simp only [beq_iff_eq] at hk
      subst hk
      have hrest : dataGet rest p.1 = none :=
        dataGet_eq_none_of_not_mem_keys hhead
      rw [hrest]
      have hd2 : dataGet (p :: rest) p.1 = some p.2 := dataGet_cons_hit (by simp)
      rw [hd2]
      exact dataGet_dictSet_self d p.1 p.2
    · have hne : k ≠ p.1 := by
        simp only [beq_iff_eq] at hk
        exact fun hc => hk hc.symm
      have hd2 : dataGet (p :: rest) k = dataGet rest k :=
        dataGet_cons_miss (by simpa using fun hc => hne hc.symm)
      rw [hd2, dataGet_dictSet_ne d p.1 k p.2 hne]

theorem find?_keyed_map (l : List (String × Node)) (i j : String)
    (u : String × Node → Node) :
    (l.map (fun p => if p.1 == i then (p.1, u p) else p)).find? (fun p => p.1 == j) =
      (l.find? (fun p => p.1 == j)).map
        (fun p => if p.1 == i then (p.1, u p) else p) := by
  rw [List.find?_map]
  have hpred : ((fun p : String × Node => p.1 == j) ∘ fun p : String × Node =>
      if p.1 == i then (p.1, u p) else p) = fun p : String × Node => p.1 == j := by
    funext q
    show ((if (q.1 == i) = true then (q.1, u q) else q).1 == j) = (q.1 == j)
    by_cases h : (q.1 == i) = true
    · rw [if_pos h]
    · rw [if_neg h]
  rw [hpred]

theorem get_node_keyed_map_self {g : KnowledgeGraph} {i : String} {n : Node}
    (u : String × Node → Node)
    (h : g.nodes.find? (fun p => p.1 == i) = some (i, n)) :
    get_node ⟨g.nodes.map (fun p => if p.1 == i then (p.1, u p) else p)⟩ i =
      some (u (i, n)) := by
  unfold get_node
  rw [find?_keyed_map, h]
  simp only [Option.map_some']
  have hif : (if (((i, n) : String × Node).1 == i) = true
      then (((i, n) : String × Node).1, u (i, n)) else ((i, n) : String × Node)) =
      (i, u (i, n)) := by
    rw [if_pos (by simp)]
  rw [hif]

/-- Claim C7 counterexample: update_node with the explicitly given (empty)
type argument "" does not replace the node's type — Python skips falsy
type arguments — although the claim says a given type argument is always
written. -/
theorem claim_C7_counterexample :
    update_node oldG "a" (some "") none = some oldG ∧
    (get_node oldG "a").map Node.type = some "old" ∧ ("old" : String) ≠ "" := by
  refine ⟨?_, by decide, by decide⟩
  decide

/-- Claim C7 amended: update_node fails (ValueError) on an absent id, the
graph being untouched; on a present id the node's type is replaced only
when the type argument is given and non-empty (a falsy type argument is
skipped), and a given data argument is merged key-by-key into the bag (new
keys appended, existing keys overwritten, unmentioned keys kept); the
node's id and edges are untouched. -/
theorem claim_C7_amended (g : KnowledgeGraph) (node_id : String)
    (node_type : Option String) (data : Option (List (String × Value))) :
    (get_node g node_id = none → update_node g node_id node_type data = none) ∧
    (∀ n, get_node g node_id = some n →
      ∃ g2, update_node g node_id node_type data = some g2 ∧
        ∃ n2, get_node g2 node_id = some n2 ∧
          n2.id = n.id ∧ n2.edges = n.edges ∧
          n2.type = (match node_type with
            | some t => if t != "" then t else n.type
            | none => n.type) ∧
          (data = none → n2.data = n.data) ∧
          (∀ d, data = some d → (d.map Prod.fst).Nodup →
            ∀ k, dataGet n2.data k =
              match dataGet d k with
              | some v => some v
              | none => dataGet n.data k)) := by
  constructor
  · intro h
    unfold update_node
    rw [h]
  · intro n hn
    have hfind := get_node_some_iff.mp hn
    refine ⟨_, by unfold update_node; rw [hn], ?_⟩
    refine ⟨_, get_node_keyed_map_self _ hfind, rfl, rfl, rfl, ?_, ?_⟩
    · intro hd
      subst hd
      rfl
    · intro d hd hnd k
      subst hd
      show dataGet (if (d != []) = true then dictUpdate n.data d else n.data) k = _
      by_cases hde : (d != []) = true
      · rw [if_pos hde]
        exact dataGet_dictUpdate n.data d hnd k
      · rw [if_neg hde]
        have hnil : d = [] := by simpa using hde
        subst hnil
        rfl

theorem claim_C7_amended_witness :
    update_node oldG "missing" (some "t") none = none ∧
    (∃ g2, update_node oldG "a" (some "new") (some [("k2", Value.num 2)]) = some g2 ∧
      ∃ n2, get_node g2 "a" = some n2 ∧ n2.id = "a" ∧ n2.edges = ([] : List Edge) ∧
        n2.type = "new" ∧ dataGet n2.data "k1" = some (Value.num 1) ∧
        dataGet n2.data "k2" = some (Value.num 2)) := by
  constructor
  · exact (claim_C7_amended oldG "missing" (some "t") none).1 (by decide)
  · obtain ⟨g2, hg2, n2, hn2, hid, hed, hty, _, hmerge⟩ :=
      (claim_C7_amended oldG "a" (some "new") (some [("k2", Value.num 2)])).2
        ⟨"a", "old", [("k1", .num 1)], []⟩ (by decide)
    refine ⟨g2, hg2, n2, hn2, hid, hed, by simpa using hty, ?_, ?_⟩
    · have h1 := hmerge [("k2", Value.num 2)] rfl (by decide) "k1"
      simpa using h1
    · have h2 := hmerge [("k2", Value.num 2)] rfl (by decide) "k2"
      simpa using h2

theorem find?_key_unique {i : String} {n : Node} :
    ∀ (l : List (String × Node)), (l.map Prod.fst).Nodup → (i, n) ∈ l →
      l.find? (fun p => p.1 == i) = some (i, n) := by
  intro l
  induction l with
  | nil => intro _ h; simp at h
  | cons a l ih =>
    intro hnd hmem
    rw [List.map_cons] at hnd
    have hnd' := List.nodup_cons.mp hnd
    rcases List.mem_cons.mp hmem with heq | hm
    · rw [← heq]
      exact @List.find?_cons_of_pos _ (fun p => p.1 == i) (i, n) l (by simp)
    · have hne : ¬(a.1 == i) = true := by
        simp only [beq_iff_eq]
        intro hc
        have hmem2 : i ∈ l.map Prod.fst := by
          simpa using List.mem_map_of_mem Prod.fst hm
        exact hnd'.1 (hc ▸ hmem2)
      rw [@List.find?_cons_of_neg _ (fun p => p.1 == i) a l hne]
      exact ih hnd'.2 hm

theorem get_node_of_mem_unique {g : KnowledgeGraph} (hU : UniqueKeys g) {i : String}
    {n : Node} (h : (i, n) ∈ g.nodes) : get_node g i = some n := by
  unfold get_node
  rw [find?_key_unique g.nodes hU h]
  rfl

theorem mem_unique_eq {g : KnowledgeGraph} (hU : UniqueKeys g) {i : String} {m n : Node}
    (hm : (i, m) ∈ g.nodes) (hn : (i, n) ∈ g.nodes) : m = n := by
  have h1 := get_node_of_mem_unique hU hm
  have h2 := get_node_of_mem_unique hU hn
  rw [h1] at h2
  exact Option.some.inj h2

theorem mem_keys_prune_of {g : KnowledgeGraph} {i j : String}
    (hj : j ∈ keys g) (hne : j ≠ i) : j ∈ keys (prune_node g i) := by
  unfold prune_node
  by_cases hp : g.nodes.any (fun p => p.1 == i) = true
  · rw [if_pos hp]
    unfold keys at hj ⊢
    obtain ⟨p, hpmem, hpj⟩ := List.mem_map.mp hj
    refine List.mem_map.mpr ⟨(p.1, { p.2 with edges := p.2.edges.filter (fun e => e.target != i) }), ?_, hpj⟩
    refine List.mem_filter.mpr ⟨List.mem_map_of_mem _ hpmem, ?_⟩
    simp only [bne_iff_ne, ne_eq, decide_eq_true_eq]
    rw [hpj]
    exact hne
  · rw [if_neg hp]
    exact hj

theorem foldl_prune_closed :
    ∀ (ids : List String) (g : KnowledgeGraph), ids.Nodup →
      (∀ i ∈ ids, i ∈ keys g) →
      ids.foldl prune_node g =
        ⟨(g.nodes.filter (fun p => !ids.contains p.1)).map
          (fun p => (p.1, { p.2 with edges := p.2.edges.filter (fun e => !ids.contains e.target) }))⟩ := by
  intro ids
  induction ids with
  | nil =>
    intro g _ _
    rw [List.foldl_nil]
    cases g with
    | mk l =>
      congr 1
      have h1 : List.filter (fun p : String × Node => !List.contains ([] : List String) p.1) l
          = l := List.filter_eq_self.mpr (fun x _ => rfl)
      rw [h1]
      have h2 : ∀ a ∈ l, ((a.1, { a.2 with
          edges := a.2.edges.filter (fun e => !List.contains ([] : List String) e.target) }) :
          String × Node) = a := by
        intro a _
        have hedg : a.2.edges.filter (fun e => !List.contains ([] : List String) e.target)
            = a.2.edges := List.filter_eq_self.mpr (fun x _ => rfl)
        rw [hedg]
      rw [List.map_congr_left h2, List.map_id']
  | cons i ids ih =>
    intro g hnd hmem
    rw [List.foldl_cons]
    have hikeys := hmem i (List.mem_cons_self i ids)
    have hpres : g.nodes.any (fun p => p.1 == i) = true := by
      obtain ⟨p, hp, hp1⟩ := List.mem_map.mp hikeys
      exact List.any_eq_true.mpr ⟨p, hp, by simp [hp1]⟩
    have hprune : prune_node g i =
        ⟨(g.nodes.map (fun p =>
            (p.1, { p.2 with edges := p.2.edges.filter (fun e => e.target != i) }))).filter
          (fun p => p.1 != i)⟩ := by
      unfold prune_node
      rw [if_pos hpres]
    have hnd2 := (List.nodup_cons.mp hnd).2
    have hni := (List.nodup_cons.mp hnd).1
    have hmem2 : ∀ j ∈ ids, j ∈ keys (prune_node g i) := by
      intro j hj
      have hjg := hmem j (List.mem_cons_of_mem i hj)
      have hne : j ≠ i := fun hc => hni (hc ▸ hj)
      exact mem_keys_prune_of hjg hne
    rw [hprune] at hmem2
    rw [hprune, ih _ hnd2 hmem2]
    congr 1
    rw [List.filter_filter, List.filter_map, List.map_map]
    have hpredeq : ∀ x ∈ g.nodes,
        (((fun a : String × Node => !ids.contains a.1 && (a.1 != i)) ∘ fun p : String × Node =>
          (p.1, { p.2 with edges := p.2.edges.filter (fun e => e.target != i) })) x) =
        ((fun p : String × Node => !List.contains (i :: ids) p.1) x) := by
      intro x _
      show (!ids.contains x.1 && (x.1 != i)) = !List.contains (i :: ids) x.1
      rw [List.contains_cons]
      cases h1 : (x.1 == i) <;> cases h2 : List.contains ids x.1 <;> simp [bne, h1, h2]
    rw [List.filter_congr hpredeq]
    apply List.map_congr_left
    intro a _
    show (a.1, ({ a.2 with edges := a.2.edges.filter (fun e => e.target != i) } : Node).edges.filter
        (fun e => !ids.contains e.target) |> fun ed =>
          ({ a.2 with edges := ed } : Node)) = _
    show ((a.1, ({ a.2 with edges :=
        (a.2.edges.filter (fun e => e.target != i)).filter (fun e => !ids.contains e.target) } : Node)) :
        String × Node) = _
    rw [List.filter_filter]
    have hedge : ∀ e ∈ a.2.edges,
        (!ids.contains e.target && (e.target != i)) = (!List.contains (i :: ids) e.target) := by
      intro e _
      rw [List.contains_cons]
      cases h1 : (e.target == i) <;> cases h2 : List.contains ids e.target <;> simp [bne, h1, h2]
    rw [List.filter_congr hedge]

/-- Claim C8: prune_failed_nodes removes exactly the nodes whose data bag
binds "failed" to the boolean true; every node with a false, missing or
other "failed" value survives with its id, type and data intact, and —
the removals going through prune_node — every surviving edge whose target
was a removed node is gone. The unique-node-id data-model invariant is
assumed. -/
theorem claim_C8 (g : KnowledgeGraph) (hU : UniqueKeys g) :
    (∀ id n, get_node g id = some n →
      dataGet n.data "failed" = some (Value.bool true) →
      get_node (prune_failed_nodes g) id = none) ∧
    (∀ id n, get_node g id = some n →
      dataGet n.data "failed" ≠ some (Value.bool true) →
      get_node (prune_failed_nodes g) id =
        some { n with edges := n.edges.filter (fun e => !(failedIds g).contains e.target) }) ∧
    (∀ id2 n2, get_node (prune_failed_nodes g) id2 = some n2 →
      ∀ e ∈ n2.edges, (failedIds g).contains e.target = false) := by
  have hndids : (failedIds g).Nodup :=
    List.Nodup.sublist (List.Sublist.map Prod.fst (List.filter_sublist g.nodes)) hU
  have hmemids : ∀ i ∈ failedIds g, i ∈ keys g := by
    intro i hi
    obtain ⟨p, hp, hp1⟩ := List.mem_map.mp hi
    exact hp1 ▸ List.mem_map_of_mem Prod.fst (List.mem_filter.mp hp).1
  have hclosed : prune_failed_nodes g =
      ⟨(g.nodes.filter (fun p => !(failedIds g).contains p.1)).map
        (fun p => (p.1, { p.2 with
          edges := p.2.edges.filter (fun e => !(failedIds g).contains e.target) }))⟩ :=
    foldl_prune_closed (failedIds g) g hndids hmemids
  refine ⟨?_, ?_, ?_⟩
  · intro id n hget hfail
    have hmem : (id, n) ∈ g.nodes := List.mem_of_find?_eq_some (get_node_some_iff.mp hget)
    have hidfail : id ∈ failedIds g := by
      refine List.mem_map.mpr ⟨(id, n), ?_, rfl⟩
      refine List.mem_filter.mpr ⟨hmem, ?_⟩
      simp [hfail]
    rw [hclosed]
    unfold get_node
    rw [List.find?_eq_none.mpr ?_]
    · rfl
    · intro x hx
      obtain ⟨y, hy, hyx⟩ := List.mem_map.mp hx
      have hyp := (List.mem_filter.mp hy).2
      simp only [Bool.not_eq_true'] at hyp
      intro hxid
      simp only [beq_iff_eq] at hxid
      have hx1 : y.1 = id := by rw [← hyx] at hxid; exact hxid
      rw [hx1] at hyp
      simp [hidfail] at hyp
  · intro id n hget hfail
    have hmem : (id, n) ∈ g.nodes := List.mem_of_find?_eq_some (get_node_some_iff.mp hget)
    have hnotfail : id ∉ failedIds g := by
      intro hid
      obtain ⟨p, hp, hp1⟩ := List.mem_map.mp hid
      have hpmem := (List.mem_filter.mp hp).1
      have hppred := (List.mem_filter.mp hp).2
      simp only [beq_iff_eq] at hppred
      have hpn : p.2 = n := by
        refine mem_unique_eq hU ?_ hmem
        rw [← hp1]
        exact hpmem
      rw [hpn] at hppred
      exact hfail hppred
    rw [hclosed]
    unfold get_node
    have hcomp : ((fun p : String × Node => p.1 == id) ∘ fun p : String × Node =>
        (p.1, { p.2 with edges := p.2.edges.filter (fun e => !(failedIds g).contains e.target) })) =
        fun p : String × Node => p.1 == id := rfl
    rw [List.find?_map, hcomp]
    rw [find?_key_unique _ ?_ ?_]
    · rfl
    · exact List.Nodup.sublist (List.Sublist.map Prod.fst (List.filter_sublist g.nodes)) hU
    · refine List.mem_filter.mpr ⟨hmem, ?_⟩
      simp [hnotfail]
  · intro id2 n2 h2 e he
    rw [hclosed] at h2
    unfold get_node at h2
    cases hfind2 : ((g.nodes.filter (fun p => !(failedIds g).contains p.1)).map
        (fun p => (p.1, { p.2 with
          edges := p.2.edges.filter (fun e => !(failedIds g).contains e.target) }))).find?
          (fun p => p.1 == id2) with
    | none => rw [hfind2] at h2; exact Option.noConfusion h2
    | some pr =>
      rw [hfind2] at h2
      simp only [Option.map_some', Option.some.injEq] at h2
      have hmem := List.mem_of_find?_eq_some hfind2
      obtain ⟨y, _, hyx⟩ := List.mem_map.mp hmem
      have hedges : n2.edges = y.2.edges.filter (fun e => !(failedIds g).contains e.target) := by
        rw [← h2, ← hyx]
      rw [hedges] at he
      have := (List.mem_filter.mp he).2
      simpa using this

theorem claim_C8_witness :
    get_node (prune_failed_nodes failG) "x" = none ∧
    get_node (prune_failed_nodes failG) "y" =
      some { (⟨"y", "e", [("failed", Value.num 1)], [⟨"y", "x", .AND⟩]⟩ : Node) with
        edges := [(⟨"y", "x", .AND⟩ : Edge)].filter
          (fun e => !(failedIds failG).contains e.target) } :=
  ⟨(claim_C8 failG (by decide)).1 "x" ⟨"x", "e", [("failed", .bool true)], []⟩
      (by decide) (by decide),
   (claim_C8 failG (by decide)).2.1 "y" ⟨"y", "e", [("failed", Value.num 1)], [⟨"y", "x", .AND⟩]⟩
      (by decide) (by decide)⟩

theorem charListLe_refl : ∀ l : List Char, charListLe l l = true := by
  intro l
  induction l with
  | nil => rfl
  | cons a l ih =>
    unfold charListLe
    rw [if_neg (lt_irrefl a), if_neg (lt_irrefl a)]
    exact ih

theorem charListLe_total : ∀ l m : List Char, charListLe l m = true ∨ charListLe m l = true := by
  intro l
  induction l with
  | nil => intro m; left; rfl
  | cons a as ih =>
    intro m
    cases m with
    | nil => right; rfl
    | cons b bs =>
      unfold charListLe
      by_cases hab : a < b
      · left; rw [if_pos hab]
      · by_cases hba : b < a
        · right; rw [if_pos hba]
        · rw [if_neg hab, if_neg hba, if_neg hba, if_neg hab]
          exact ih bs

theorem charListLe_trans : ∀ l m k : List Char,
    charListLe l m = true → charListLe m k = true → charListLe l k = true := by
  intro l
  induction l with
  | nil => intro m k _ _; rfl
  | cons a as ih =>
    intro m k h1 h2
    cases m with
    | nil => exact absurd h1 (by simp [charListLe])
    | cons b bs =>
      cases k with
      | nil => exact absurd h2 (by simp [charListLe])
      | cons c cs =>
        unfold charListLe at h1 h2 ⊢
        by_cases hab : a < b
        · by_cases hbc : b < c
          · rw [if_pos (lt_trans hab hbc)]
          · by_cases hcb : c < b
            · rw [if_neg hbc, if_pos hcb] at h2
              exact absurd h2 (by simp)
            · have hbc2 : b = c := le_antisymm (not_lt.mp hcb) (not_lt.mp hbc)
              subst hbc2
              rw [if_pos hab]
        · by_cases hba : b < a
          · rw [if_neg hab, if_pos hba] at h1
            exact absurd h1 (by simp)
          · have hab2 : a = b := le_antisymm (not_lt.mp hba) (not_lt.mp hab)
            subst hab2
            rw [if_neg hab, if_neg hba] at h1
            by_cases hac : a < c
            · rw [if_pos hac]
            · by_cases hca : c < a
              · rw [if_neg hac, if_pos hca] at h2
                exact absurd h2 (by simp)
              · have hac2 : a = c := le_antisymm (not_lt.mp hca) (not_lt.mp hac)
                subst hac2
                rw [if_neg hac, if_neg hca] at h2 ⊢
                exact ih bs cs h1 h2

theorem strLe_refl (a : String) : strLe a a = true := charListLe_refl a.data

theorem strLe_total (a b : String) : strLe a b = true ∨ strLe b a = true :=
  charListLe_total a.data b.data

theorem strLe_trans {a b c : String} (h1 : strLe a b = true) (h2 : strLe b c = true) :
    strLe a c = true := charListLe_trans a.data b.data c.data h1 h2

theorem mem_orderedInsertByNodeId {x y : Edge × Node} :
    ∀ {l : List (Edge × Node)}, y ∈ orderedInsertByNodeId x l ↔ y = x ∨ y ∈ l := by
  intro l
  induction l with
  | nil => simp [orderedInsertByNodeId]
  | cons a l ih =>
    unfold orderedInsertByNodeId
    by_cases h : strLe x.2.id a.2.id = true
    · rw [if_pos h]
      simp [List.mem_cons]
    · rw [if_neg h]
      simp only [List.mem_cons, ih]
      tauto

theorem length_orderedInsertByNodeId (x : Edge × Node) :
    ∀ (l : List (Edge × Node)), (orderedInsertByNodeId x l).length = l.length + 1 := by
  intro l
  induction l with
  | nil => rfl
  | cons a l ih =>
    unfold orderedInsertByNodeId
    by_cases h : strLe x.2.id a.2.id = true
    · rw [if_pos h]
      rfl
    · rw [if_neg h]
      simp [ih]

theorem length_sortByNodeId : ∀ (l : List (Edge × Node)),
    (sortByNodeId l).length = l.length := by
  intro l
  induction l with
  | nil => rfl
  | cons a l ih =>
    unfold sortByNodeId
    rw [length_orderedInsertByNodeId, ih]
    rfl

theorem chooseOr_min : ∀ (l : List (Edge × Node)) (p : Edge × Node),
    chooseOr l = some p → p ∈ l ∧ ∀ q ∈ l, strLe p.2.id q.2.id = true := by
  intro l
  induction l with
  | nil => intro p h; exact Option.noConfusion h
  | cons x xs ih =>
    intro p hp
    unfold chooseOr sortByNodeId at hp
    cases hs : sortByNodeId xs with
    | nil =>
      rw [hs] at hp
      have hxs : xs = [] := by
        have := length_sortByNodeId xs
        rw [hs] at this
        exact List.eq_nil_of_length_eq_zero this.symm
      subst hxs
      simp only [orderedInsertByNodeId, List.head?] at hp
      have hpx : p = x := by
        cases hp
        rfl
      subst hpx
      refine ⟨List.mem_singleton.mpr rfl, ?_⟩
      intro q hq
      rw [List.mem_singleton.mp hq]
      exact strLe_refl _
    | cons b m =>
      rw [hs] at hp
      have hb : chooseOr xs = some b := by
        unfold chooseOr
        rw [hs]
        rfl
      obtain ⟨hbmem, hbmin⟩ := ih b hb
      unfold orderedInsertByNodeId at hp
      by_cases h : strLe x.2.id b.2.id = true
      · rw [if_pos h] at hp
        have hpx : p = x := by
          cases hp
          rfl
        subst hpx
        refine ⟨List.mem_cons_self _ _, ?_⟩
        intro q hq
        rcases List.mem_cons.mp hq with rfl | hq2
        · exact strLe_refl _
        · exact strLe_trans h (hbmin q hq2)
      · rw [if_neg h] at hp
        have hpb : p = b := by
          cases hp
          rfl
        subst hpb
        refine ⟨List.mem_cons_of_mem _ hbmem, ?_⟩
        intro q hq
        rcases List.mem_cons.mp hq with rfl | hq2
        · rcases strLe_total p.2.id q.2.id with hok | hko
          · exact hok
          · exact absurd hko h
        · exact hbmin q hq2

theorem chooseOr_isSome {l : List (Edge × Node)} (h : l ≠ []) :
    ∃ p, chooseOr l = some p := by
  unfold chooseOr
  cases hs : sortByNodeId l with
  | nil =>
    have := length_sortByNodeId l
    rw [hs] at this
    exact absurd (List.eq_nil_of_length_eq_zero this.symm) h
  | cons b m => exact ⟨b, rfl⟩

theorem mem_incomingEdges {g : KnowledgeGraph} {nid : String} {e : Edge} {nd : Node} :
    (e, nd) ∈ incomingEdges g nid ↔
      (∃ k, (k, nd) ∈ g.nodes) ∧ e ∈ nd.edges ∧ e.target = nid := by
  unfold incomingEdges
  simp only [List.mem_flatMap, List.mem_filterMap, List.mem_map]
  constructor
  · rintro ⟨a, ⟨x, hx, hxa⟩, e2, he2, hif⟩
    by_cases ht : (e2.target == nid) = true
    · rw [if_pos ht] at hif
      obtain ⟨rfl, rfl⟩ : e2 = e ∧ a = nd := by
        cases hif
        exact ⟨rfl, rfl⟩
      simp only [beq_iff_eq] at ht
      refine ⟨⟨x.1, ?_⟩, he2, ht⟩
      rw [← hxa]
      simpa using hx
    · rw [if_neg ht] at hif
      exact Option.noConfusion hif
  · rintro ⟨⟨k, hk⟩, he, ht⟩
    exact ⟨nd, ⟨(k, nd), hk, rfl⟩, e, he, by rw [if_pos (by simp [ht])]⟩

theorem edgeRel_of_incoming {g : KnowledgeGraph} {nid : String} {pr : Edge × Node}
    (h : pr ∈ incomingEdges g nid) : EdgeRelG g pr.2.id nid := by
  obtain ⟨⟨k, hk⟩, he, ht⟩ := mem_incomingEdges.mp (show (pr.1, pr.2) ∈ _ from h)
  exact ⟨(k, pr.2), hk, pr.1, he, rfl, ht⟩

theorem dfs_zero (n : Node) (s : DfsState) : dfs 0 n s = s := rfl

theorem dfs_succ_visited (fuel : Nat) (n : Node) (s : DfsState)
    (h : n.id ∈ s.visited) : dfs (fuel + 1) n s = s := by
  conv_lhs => rw [dfs]
  rw [if_pos h]

theorem dfs_succ_blocked (fuel : Nat) (n : Node) (s : DfsState) (h : n.id ∉ s.visited)
    (hb : (notIncoming s.graph n.id).any (fun p => truthy (dataGet p.2.data "visited")) = true) :
    dfs (fuel + 1) n s = ⟨s.graph, n.id :: s.visited, s.path⟩ := by
  conv_lhs => rw [dfs]
  rw [if_neg h, if_pos hb]

theorem dfs_succ_unblocked_none (fuel : Nat) (n : Node) (s : DfsState) (h : n.id ∉ s.visited)
    (hb : (notIncoming s.graph n.id).any (fun p => truthy (dataGet p.2.data "visited")) = false)
    (hor : chooseOr (orIncoming s.graph n.id) = none) :
    dfs (fuel + 1) n s =
      (fun s2 : DfsState => ⟨s2.graph, s2.visited, s2.path ++ [n.id]⟩)
        ((andIncoming s.graph n.id).foldl (fun st p => dfs fuel p.2 st)
          ⟨s.graph, n.id :: s.visited, s.path⟩) := by
  conv_lhs => rw [dfs]
  rw [if_neg h, if_neg (by simp [hb]), hor]

theorem dfs_succ_unblocked_some (fuel : Nat) (n : Node) (s : DfsState) (h : n.id ∉ s.visited)
    (hb : (notIncoming s.graph n.id).any (fun p => truthy (dataGet p.2.data "visited")) = false)
    (p : Edge × Node) (hor : chooseOr (orIncoming s.graph n.id) = some p) :
    dfs (fuel + 1) n s =
      (fun s3 : DfsState => ⟨s3.graph, s3.visited, s3.path ++ [n.id]⟩)
        (dfs fuel p.2
          ((andIncoming s.graph n.id).foldl (fun st p => dfs fuel p.2 st)
            ⟨s.graph, n.id :: s.visited, s.path⟩)) := by
  conv_lhs => rw [dfs]
  rw [if_neg h, if_neg (by simp [hb]), hor]

theorem evolves_refl (s : DfsState) : Evolves s s :=
  ⟨rfl, fun _ h => h, ⟨[], by simp⟩, fun _ h => Or.inl h⟩

theorem evolves_trans {s t u : DfsState} (h1 : Evolves s t) (h2 : Evolves t u) :
    Evolves s u := by
  obtain ⟨hg1, hv1, ⟨suf1, hp1⟩, hf1⟩ := h1
  obtain ⟨hg2, hv2, ⟨suf2, hp2⟩, hf2⟩ := h2
  refine ⟨hg2.trans hg1, fun x hx => hv2 x (hv1 x hx),
    ⟨suf1 ++ suf2, by rw [hp2, hp1, List.append_assoc]⟩, ?_⟩
  intro x hx
  rcases hf2 x hx with hxt | ⟨hnv, hv⟩
  · rcases hf1 x hxt with hxs | ⟨hn, hv2x⟩
    · exact Or.inl hxs
    · exact Or.inr ⟨hn, hv2 x hv2x⟩
  · exact Or.inr ⟨fun hc => hnv (hv1 x hc), hv⟩

theorem evolves_append_last {s t : DfsState} (h : Evolves s t) {a : String}
    (hnv : a ∉ s.visited) (hvt : a ∈ t.visited) :
    Evolves s ⟨t.graph, t.visited, t.path ++ [a]⟩ := by
  obtain ⟨hg, hvv, ⟨suf, hpath⟩, hfresh⟩ := h
  refine ⟨hg, hvv, ⟨suf ++ [a], ?_⟩, ?_⟩
  · show t.path ++ [a] = s.path ++ (suf ++ [a])
    rw [hpath, List.append_assoc]
  · intro x hx
    have hx2 : x ∈ t.path ++ [a] := hx
    rcases List.mem_append.mp hx2 with hx3 | hlast
    · rcases hfresh x hx3 with hxs | ⟨hn, hvis⟩
      · exact Or.inl hxs
      · exact Or.inr ⟨hn, hvis⟩
    · have hxa : x = a := by simpa using hlast
      subst hxa
      exact Or.inr ⟨hnv, hvt⟩

theorem foldl_evolves {f : DfsState → (Edge × Node) → DfsState}
    (hf : ∀ s p, Evolves s (f s p)) :
    ∀ (l : List (Edge × Node)) (s : DfsState), Evolves s (l.foldl f s) := by
  intro l
  induction l with
  | nil => intro s; exact evolves_refl s
  | cons a l ih =>
    intro s
    rw [List.foldl_cons]
    exact evolves_trans (hf s a) (ih (f s a))

theorem dfs_evolves : ∀ (fuel : Nat) (n : Node) (s : DfsState), Evolves s (dfs fuel n s) := by
  intro fuel
  induction fuel with
  | zero => intro n s; exact evolves_refl s
  | succ fuel ih =>
    intro n s
    by_cases hv : n.id ∈ s.visited
    · rw [dfs_succ_visited fuel n s hv]
      exact evolves_refl s
    · have e1 : Evolves s ⟨s.graph, n.id :: s.visited, s.path⟩ :=
        ⟨rfl, fun x hx => List.mem_cons_of_mem _ hx, ⟨[], by simp⟩, fun x hx => Or.inl hx⟩
      cases hb : (notIncoming s.graph n.id).any (fun p => truthy (dataGet p.2.data "visited")) with
      | true =>
        rw [dfs_succ_blocked fuel n s hv hb]
        exact e1
      | false =>
        have e12 : Evolves ⟨s.graph, n.id :: s.visited, s.path⟩
            ((andIncoming s.graph n.id).foldl (fun st p => dfs fuel p.2 st)
              ⟨s.graph, n.id :: s.visited, s.path⟩) :=
          foldl_evolves (fun st p => ih p.2 st) _ _
        have e2 : Evolves s
            ((andIncoming s.graph n.id).foldl (fun st p => dfs fuel p.2 st)
              ⟨s.graph, n.id :: s.visited, s.path⟩) :=
          evolves_trans e1 e12
        cases hc : chooseOr (orIncoming s.graph n.id) with
        | none =>
          rw [dfs_succ_unblocked_none fuel n s hv hb hc]
          have hnidv : n.id ∈ ((andIncoming s.graph n.id).foldl (fun st p => dfs fuel p.2 st)
              ⟨s.graph, n.id :: s.visited, s.path⟩).visited :=
            e12.2.1 n.id (List.mem_cons_self _ _)
          exact evolves_append_last e2 hv hnidv
        | some p =>
          rw [dfs_succ_unblocked_some fuel n s hv hb p hc]
          have e23 : Evolves ⟨s.graph, n.id :: s.visited, s.path⟩
              (dfs fuel p.2
                ((andIncoming s.graph n.id).foldl (fun st pr => dfs fuel pr.2 st)
                  ⟨s.graph, n.id :: s.visited, s.path⟩)) :=
            evolves_trans e12 (ih p.2 _)
          have e3 : Evolves s
              (dfs fuel p.2
                ((andIncoming s.graph n.id).foldl (fun st pr => dfs fuel pr.2 st)
                  ⟨s.graph, n.id :: s.visited, s.path⟩)) :=
            evolves_trans e1 e23
          have hnidv : n.id ∈ (dfs fuel p.2
              ((andIncoming s.graph n.id).foldl (fun st pr => dfs fuel pr.2 st)
                ⟨s.graph, n.id :: s.visited, s.path⟩)).visited :=
            e23.2.1 n.id (List.mem_cons_self _ _)
          exact evolves_append_last e3 hv hnidv

theorem dfs_graph (fuel : Nat) (n : Node) (s : DfsState) :
    (dfs fuel n s).graph = s.graph := (dfs_evolves fuel n s).1

theorem dfs_visits (fuel : Nat) (n : Node) (s : DfsState) (hf : 1 ≤ fuel) :
    n.id ∈ (dfs fuel n s).visited := by
  cases fuel with
  | zero => exact absurd hf (by simp)
  | succ fuel =>
    by_cases hv : n.id ∈ s.visited
    · rw [dfs_succ_visited fuel n s hv]
      exact hv
    · cases hb : (notIncoming s.graph n.id).any
          (fun p => truthy (dataGet p.2.data "visited")) with
      | true =>
        rw [dfs_succ_blocked fuel n s hv hb]
        exact List.mem_cons_self _ _
      | false =>
        have e12 : Evolves ⟨s.graph, n.id :: s.visited, s.path⟩
            ((andIncoming s.graph n.id).foldl (fun st p => dfs fuel p.2 st)
              ⟨s.graph, n.id :: s.visited, s.path⟩) :=
          foldl_evolves (fun st p => dfs_evolves fuel p.2 st) _ _
        cases hc : chooseOr (orIncoming s.graph n.id) with
        | none =>
          rw [dfs_succ_unblocked_none fuel n s hv hb hc]
          exact e12.2.1 n.id (List.mem_cons_self _ _)
        | some p =>
          rw [dfs_succ_unblocked_some fuel n s hv hb p hc]
          exact (evolves_trans e12 (dfs_evolves fuel p.2 _)).2.1 n.id (List.mem_cons_self _ _)

/-- Claim C10: resolve_plan never mutates the graph. The traversal state
threads the graph through every recursive call and returns it identical:
the node map, and with it every node's type, data and edge list, is
unchanged; the visited set and path live only in the per-call state, whose
initial visited set is fresh ([]). -/
theorem claim_C10 (g : KnowledgeGraph) (goal_id : String) :
    (resolveState g goal_id).graph = g ∧
    traverse_for_goal g goal_id = (resolveState g goal_id).path ∧
    (∀ n, get_node g goal_id = some n →
      resolveState g goal_id = dfs (g.nodes.length + 1) n ⟨g, [], []⟩) := by
  refine ⟨?_, rfl, ?_⟩
  · unfold resolveState
    cases h : get_node g goal_id with
    | none => rfl
    | some n => exact dfs_graph _ n ⟨g, [], []⟩
  · intro n h
    unfold resolveState
    rw [h]

theorem claim_C10_witness :
    (resolveState chainG "C").graph = chainG ∧
    resolveState chainG "C" = dfs 4 ⟨"C", "event", [], []⟩ ⟨chainG, [], []⟩ :=
  ⟨(claim_C10 chainG "C").1,
   (claim_C10 chainG "C").2.2 ⟨"C", "event", [], []⟩ (by decide)⟩

/-- Claim C3 counterexample: in notG the only NOT source into b has
"visited" bound to the number 1 — not the boolean true — so by the claim
the resolution of b should proceed and append b; the code blocks b (Python
truthiness) and returns the empty plan. -/
theorem claim_C3_counterexample :
    (∀ p ∈ notIncoming notG "b", dataGet p.2.data "visited" ≠ some (Value.bool true)) ∧
    traverse_for_goal notG "b" = [] ∧
    "b" ∉ traverse_for_goal notG "b" := ⟨by decide, by decide, by decide⟩

/-- Claim C3 amended: a node under resolution is blocked exactly when some
incoming NOT edge's source carries a truthy "visited" metadata value
(Python truthiness: true, a nonzero number, a nonempty string), not only
the boolean true. A blocked node recurses into nothing and is not
appended, yet stays marked visited-for-this-pass, so a later discovery in
the same pass returns at once; when no NOT source is truthy, processing
proceeds and the node id is appended to the plan. -/
theorem claim_C3_amended (g : KnowledgeGraph) (n : Node) (s : DfsState) (fuel : Nat)
    (hg : s.graph = g) (hnv : n.id ∉ s.visited) :
    ((notIncoming g n.id).any (fun p => truthy (dataGet p.2.data "visited")) = true →
      dfs (fuel + 1) n s = ⟨g, n.id :: s.visited, s.path⟩) ∧
    (∀ (m : Node) (s2 : DfsState) (f2 : Nat), m.id ∈ s2.visited → dfs f2 m s2 = s2) ∧
    ((notIncoming g n.id).any (fun p => truthy (dataGet p.2.data "visited")) = false →
      n.id ∈ (dfs (fuel + 1) n s).path) := by
  subst hg
  refine ⟨?_, ?_, ?_⟩
  · intro hb
    exact dfs_succ_blocked fuel n s hnv hb
  · intro m s2 f2 hm
    cases f2 with
    | zero => rfl
    | succ f2 => exact dfs_succ_visited f2 m s2 hm
  · intro hb
    cases hc : chooseOr (orIncoming s.graph n.id) with
    | none =>
      rw [dfs_succ_unblocked_none fuel n s hnv hb hc]
      show n.id ∈ _ ++ [n.id]
      simp
    | some p =>
      rw [dfs_succ_unblocked_some fuel n s hnv hb p hc]
      show n.id ∈ _ ++ [n.id]
      simp

theorem claim_C3_amended_witness :
    dfs 3 ⟨"b", "event", [], []⟩ ⟨notG2, [], []⟩ = ⟨notG2, ["b"], []⟩ ∧
    dfs 2 ⟨"b", "event", [], []⟩ ⟨notG2, ["b"], ["p"]⟩ = ⟨notG2, ["b"], ["p"]⟩ ∧
    "C" ∈ (dfs 4 ⟨"C", "event", [], []⟩ ⟨chainG, [], []⟩).path :=
  ⟨(claim_C3_amended notG2 ⟨"b", "event", [], []⟩ ⟨notG2, [], []⟩ 2 rfl (by decide)).1
      (by decide),
   (claim_C3_amended notG2 ⟨"b", "event", [], []⟩ ⟨notG2, [], []⟩ 2 rfl (by decide)).2.1
      ⟨"b", "event", [], []⟩ ⟨notG2, ["b"], ["p"]⟩ 2 (by decide),
   (claim_C3_amended chainG ⟨"C", "event", [], []⟩ ⟨chainG, [], []⟩ 3 rfl (by decide)).2.2
      (by decide)⟩

/-- Claim C2: with incoming OR edges present, the resolver recurses into
exactly the pair chosen by chooseOr — a member of the OR candidates whose
source node id is lexicographically smallest (code-point order, as
Python's sorted uses); the function being pure, repeated runs agree. On
the spec's example, torch always resolves through charcoal ("charcoal" <
"coal") and coal is never visited or appended. -/
theorem claim_C2 :
    (∀ (l : List (Edge × Node)), l ≠ [] →
      ∃ p, chooseOr l = some p ∧ p ∈ l ∧ ∀ q ∈ l, strLe p.2.id q.2.id = true) ∧
    traverse_for_goal orG "torch" = ["charcoal", "torch"] ∧
    "coal" ∉ traverse_for_goal orG "torch" := by
  refine ⟨?_, by decide, by decide⟩
  intro l hl
  obtain ⟨p, hp⟩ := chooseOr_isSome hl
  obtain ⟨hmem, hmin⟩ := chooseOr_min l p hp
  exact ⟨p, hp, hmem, hmin⟩

theorem claim_C2_witness :
    (∃ p, chooseOr (orIncoming orG "torch") = some p ∧ p ∈ orIncoming orG "torch" ∧
      ∀ q ∈ orIncoming orG "torch", strLe p.2.id q.2.id = true) ∧
    traverse_for_goal orG "torch" = ["charcoal", "torch"] :=
  ⟨claim_C2.1 (orIncoming orG "torch") (by decide), claim_C2.2.1⟩

theorem foldl_path_reaches (fuel : Nat)
    (IH : ∀ (n : Node) (s : DfsState), ∀ x ∈ (dfs fuel n s).path,
      x ∈ s.path ∨ Reaches s.graph x n.id) (tgt : String) :
    ∀ (l : List (Edge × Node)) (s : DfsState),
      (∀ q ∈ l, EdgeRelG s.graph q.2.id tgt) →
      ∀ x ∈ (l.foldl (fun st p => dfs fuel p.2 st) s).path,
        x ∈ s.path ∨ Reaches s.graph x tgt := by
  intro l
  induction l with
  | nil => intro s _ x hx; exact Or.inl hx
  | cons a l ih =>
    intro s hrel x hx
    rw [List.foldl_cons] at hx
    have hgr : (dfs fuel a.2 s).graph = s.graph := dfs_graph fuel a.2 s
    have hrel2 : ∀ q ∈ l, EdgeRelG (dfs fuel a.2 s).graph q.2.id tgt := by
      intro q hq
      rw [hgr]
      exact hrel q (List.mem_cons_of_mem a hq)
    rcases ih (dfs fuel a.2 s) hrel2 x hx with hx2 | hreach
    · rcases IH a.2 s x hx2 with hx3 | hreach2
      · exact Or.inl hx3
      · exact Or.inr (Relation.ReflTransGen.tail hreach2 (hrel a (List.mem_cons_self a l)))
    · rw [hgr] at hreach
      exact Or.inr hreach

theorem dfs_path_reaches : ∀ (fuel : Nat) (n : Node) (s : DfsState),
    ∀ x ∈ (dfs fuel n s).path, x ∈ s.path ∨ Reaches s.graph x n.id := by
  intro fuel
  induction fuel with
  | zero => intro n s x hx; exact Or.inl hx
  | succ fuel ih =>
    intro n s x hx
    by_cases hv : n.id ∈ s.visited
    · rw [dfs_succ_visited fuel n s hv] at hx
      exact Or.inl hx
    · cases hb : (notIncoming s.graph n.id).any
          (fun p => truthy (dataGet p.2.data "visited")) with
      | true =>
        rw [dfs_succ_blocked fuel n s hv hb] at hx
        exact Or.inl hx
      | false =>
        have hand : ∀ q ∈ andIncoming s.graph n.id, EdgeRelG s.graph q.2.id n.id := by
          intro q hq
          exact edgeRel_of_incoming (List.mem_filter.mp hq).1
        cases hc : chooseOr (orIncoming s.graph n.id) with
        | none =>
          rw [dfs_succ_unblocked_none fuel n s hv hb hc] at hx
          have hx2 : x ∈ ((andIncoming s.graph n.id).foldl (fun st p => dfs fuel p.2 st)
              ⟨s.graph, n.id :: s.visited, s.path⟩).path ++ [n.id] := hx
          rcases List.mem_append.mp hx2 with hx3 | hlast
          · exact foldl_path_reaches fuel ih n.id (andIncoming s.graph n.id)
              ⟨s.graph, n.id :: s.visited, s.path⟩ hand x hx3
          · have hxn : x = n.id := by simpa using hlast
            subst hxn
            exact Or.inr Relation.ReflTransGen.refl
        | some p =>
          rw [dfs_succ_unblocked_some fuel n s hv hb p hc] at hx
          have hx2 : x ∈ (dfs fuel p.2
              ((andIncoming s.graph n.id).foldl (fun st pr => dfs fuel pr.2 st)
                ⟨s.graph, n.id :: s.visited, s.path⟩)).path ++ [n.id] := hx
          have hg2 : ((andIncoming s.graph n.id).foldl (fun st pr => dfs fuel pr.2 st)
              ⟨s.graph, n.id :: s.visited, s.path⟩).graph = s.graph :=
            (foldl_evolves (fun st pr => dfs_evolves fuel pr.2 st) _ _).1
          rcases List.mem_append.mp hx2 with hx3 | hlast
          · rcases ih p.2 _ x hx3 with hx4 | hreach
            · exact foldl_path_reaches fuel ih n.id (andIncoming s.graph n.id)
                ⟨s.graph, n.id :: s.visited, s.path⟩ hand x hx4
            · rw [hg2] at hreach
              have hp : p ∈ orIncoming s.graph n.id := (chooseOr_min _ p hc).1
              have hrel : EdgeRelG s.graph p.2.id n.id :=
                edgeRel_of_incoming (List.mem_filter.mp hp).1
              exact Or.inr (Relation.ReflTransGen.tail hreach hrel)
          · have hxn : x = n.id := by simpa using hlast
            subst hxn
            exact Or.inr Relation.ReflTransGen.refl

theorem filter_length_mono {α : Type} {p q : α → Bool} (l : List α)
    (h : ∀ x ∈ l, p x = true → q x = true) :
    (l.filter p).length ≤ (l.filter q).length := by
  induction l with
  | nil => exact le_refl _
  | cons b t ih =>
    have ht := fun x hx => h x (List.mem_cons_of_mem b hx)
    by_cases hpb : p b = true
    · rw [List.filter_cons_of_pos hpb, List.filter_cons_of_pos (h b (List.mem_cons_self b t) hpb)]
      exact Nat.succ_le_succ (ih ht)
    · rw [List.filter_cons_of_neg hpb]
      by_cases hqb : q b = true
      · rw [List.filter_cons_of_pos hqb]
        exact Nat.le_succ_of_le (ih ht)
      · rw [List.filter_cons_of_neg hqb]
        exact ih ht

theorem filter_length_lt {α : Type} {p q : α → Bool} {l : List α} {a : α}
    (h : ∀ x ∈ l, p x = true → q x = true) (ha : a ∈ l)
    (hpa : p a = false) (hqa : q a = true) :
    (l.filter p).length < (l.filter q).length := by
  induction l with
  | nil => simp at ha
  | cons b t ih =>
    have ht := fun x hx => h x (List.mem_cons_of_mem b hx)
    rcases List.mem_cons.mp ha with rfl | hat
    · rw [List.filter_cons_of_neg (by simp [hpa]), List.filter_cons_of_pos hqa]
      exact Nat.lt_succ_of_le (filter_length_mono t ht)
    · by_cases hqb : q b = true
      · rw [List.filter_cons_of_pos hqb]
        by_cases hpb : p b = true
        · rw [List.filter_cons_of_pos hpb]
          exact Nat.succ_lt_succ (ih ht hat)
        · rw [List.filter_cons_of_neg hpb]
          exact Nat.lt_succ_of_lt (ih ht hat)
      · have hpb : ¬ p b = true := fun hc => hqb (h b (List.mem_cons_self b t) hc)
        rw [List.filter_cons_of_neg hpb, List.filter_cons_of_neg hqb]
        exact ih ht hat

theorem unvisited_lt {g : KnowledgeGraph} {v : List String} {a : String}
    (ha : a ∈ keys g) (hnv : a ∉ v) :
    unvisitedCount g (a :: v) < unvisitedCount g v := by
  unfold unvisitedCount
  refine filter_length_lt ?_ ha ?_ ?_
  · intro x _ hx
    simp only [Bool.not_eq_true'] at hx ⊢
    rw [List.contains_cons] at hx
    exact (Bool.or_eq_false_iff.mp hx).2
  · simp [List.contains_cons]
  · simp [hnv]

theorem unvisited_le_of_sub {g : KnowledgeGraph} {v w : List String}
    (h : ∀ x ∈ v, x ∈ w) : unvisitedCount g w ≤ unvisitedCount g v := by
  unfold unvisitedCount
  refine filter_length_mono _ ?_
  intro x _ hx
  simp only [Bool.not_eq_true'] at hx ⊢
  by_cases hxv : x ∈ v
  · have hxw : x ∈ w := h x hxv
    simp [hxw] at hx
  · simp [hxv]

theorem unvisited_pos {g : KnowledgeGraph} {v : List String} {a : String}
    (ha : a ∈ keys g) (hnv : a ∉ v) : 1 ≤ unvisitedCount g v := by
  unfold unvisitedCount
  have hmem : a ∈ (keys g).filter (fun k => !v.contains k) :=
    List.mem_filter.mpr ⟨ha, by simp [hnv]⟩
  calc 1 ≤ 1 := le_refl 1
    _ ≤ _ := List.length_pos.mpr (List.ne_nil_of_mem hmem)

theorem foldl_visits (fuel : Nat) (hfe : 1 ≤ fuel) :
    ∀ (l : List (Edge × Node)) (s : DfsState), ∀ q ∈ l,
      q.2.id ∈ (l.foldl (fun st p => dfs fuel p.2 st) s).visited := by
  intro l
  induction l with
  | nil => intro s q hq; simp at hq
  | cons a l ih =>
    intro s q hq
    rw [List.foldl_cons]
    rcases List.mem_cons.mp hq with rfl | hq2
    · have h1 : q.2.id ∈ (dfs fuel q.2 s).visited := dfs_visits fuel q.2 s hfe
      exact (foldl_evolves (fun st p => dfs_evolves fuel p.2 st) l (dfs fuel q.2 s)).2.1 _ h1
    · exact ih (dfs fuel a.2 s) q hq2

theorem dfs_last (fuel : Nat) (n : Node) (s : DfsState) :
    (dfs fuel n s).path = s.path ∨ ∃ X, (dfs fuel n s).path = X ++ [n.id] := by
  cases fuel with
  | zero => exact Or.inl rfl
  | succ fuel =>
    by_cases hv : n.id ∈ s.visited
    · rw [dfs_succ_visited fuel n s hv]
      exact Or.inl rfl
    · cases hb : (notIncoming s.graph n.id).any
          (fun p => truthy (dataGet p.2.data "visited")) with
      | true =>
        rw [dfs_succ_blocked fuel n s hv hb]
        exact Or.inl rfl
      | false =>
        cases hc : chooseOr (orIncoming s.graph n.id) with
        | none =>
          rw [dfs_succ_unblocked_none fuel n s hv hb hc]
          exact Or.inr ⟨_, rfl⟩
        | some p =>
          rw [dfs_succ_unblocked_some fuel n s hv hb p hc]
          exact Or.inr ⟨_, rfl⟩

theorem acyclic_of_rank {g : KnowledgeGraph} (rank : String → Nat)
    (h : ∀ a b, EdgeRelG g a b → rank a < rank b) : Acyclic g := by
  intro a b hab hba
  have hle : ∀ x y, Reaches g x y → rank x ≤ rank y := by
    intro x y hxy
    induction hxy with
    | refl => exact le_refl _
    | tail _ hrel ihr => exact le_trans ihr (le_of_lt (h _ _ hrel))
  exact absurd (h a b hab) (not_lt.mpr (hle b a hba))

theorem edgeRelG_of_depAI {g : KnowledgeGraph} (hS : SrcOwner g) {a b : String}
    (h : DepAI g a b) : EdgeRelG g a b := by
  obtain ⟨pr, hprm, e, he, hesrc, hetgt, _⟩ := h
  exact ⟨pr, hprm, e, he, (hS pr hprm e he).symm.trans hesrc, hetgt⟩

theorem nodeInG_id_mem_keys {g : KnowledgeGraph} (hK : KeysMatch g) {n : Node}
    (h : ∃ k, (k, n) ∈ g.nodes) : n.id ∈ keys g := by
  obtain ⟨k, hk⟩ := h
  have hid : n.id = k := hK (k, n) hk
  rw [hid]
  exact List.mem_map_of_mem Prod.fst hk

theorem inv_append {g : KnowledgeGraph} (hS : SrcOwner g) (hA : Acyclic g)
    {s s2 : DfsState} {n : Node}
    (hv : n.id ∉ s.visited)
    (hInvS : Inv g s)
    (hInv2 : Inv g s2)
    (hev : Evolves ⟨g, n.id :: s.visited, s.path⟩ s2)
    (hreach : ∀ x ∈ s2.path, x ∈ s.path ∨ Reaches g x n.id)
    (handv : ∀ q ∈ andIncoming g n.id, q.2.id ∈ s2.visited)
    (horv : ∀ p, chooseOr (orIncoming g n.id) = some p → p.2.id ∈ s2.visited) :
    Inv g ⟨s2.graph, s2.visited, s2.path ++ [n.id]⟩ := by
  obtain ⟨i1, i2, i3⟩ := hInv2
  have hnidv : n.id ∈ s2.visited := hev.2.1 n.id (List.mem_cons_self _ _)
  have hF1 : n.id ∉ s2.path := by
    intro hc
    rcases hev.2.2.2 n.id hc with hin | ⟨hnin, _⟩
    · exact hv (hInvS.1 n.id hin)
    · exact hnin (List.mem_cons_self _ _)
  refine ⟨?_, ?_, ?_⟩
  · intro x hx
    have hx2 : x ∈ s2.path ++ [n.id] := hx
    rcases List.mem_append.mp hx2 with h | h
    · exact i1 x h
    · have hxn : x = n.id := by simpa using h
      subst hxn
      exact hnidv
  · intro src tgt hdep htgt
    have htgt2 : tgt ∈ s2.path ++ [n.id] := htgt
    rcases List.mem_append.mp htgt2 with htp | htl
    · obtain ⟨hsv, hbef⟩ := i2 src tgt hdep htp
      refine ⟨hsv, ?_⟩
      intro hsrcp
      have hsrcp2 : src ∈ s2.path ++ [n.id] := hsrcp
      rcases List.mem_append.mp hsrcp2 with hsp | hsl
      · exact appearsBefore_append (hbef hsp) [n.id]
      · have hsn : src = n.id := by simpa using hsl
        have hrel : EdgeRelG g src tgt := edgeRelG_of_depAI hS hdep
        have hrel2 : EdgeRelG g n.id tgt := hsn ▸ hrel
        rcases hreach tgt htp with htin | hre
        · have hvis := (hInvS.2.1 src tgt hdep htin).1
          rw [hsn] at hvis
          exact absurd hvis hv
        · exact absurd hre (fun hcy => hA n.id tgt hrel2 hcy)
    · have htn : tgt = n.id := by simpa using htl
      subst htn
      obtain ⟨pr, hprm, e, he, hesrc, hetgt, hty⟩ := hdep
      have hinc : (e, pr.2) ∈ incomingEdges g n.id :=
        mem_incomingEdges.mpr ⟨⟨pr.1, by simpa using hprm⟩, he, hetgt⟩
      have hand : (e, pr.2) ∈ andIncoming g n.id := by
        refine List.mem_filter.mpr ⟨hinc, ?_⟩
        rcases hty with h | h <;> simp [h]
      have hsid : src = pr.2.id := by
        rw [← hesrc]
        exact hS pr hprm e he
      have hsv : src ∈ s2.visited := by
        rw [hsid]
        exact handv (e, pr.2) hand
      refine ⟨hsv, ?_⟩
      intro hsrcp
      have hsrcp2 : src ∈ s2.path ++ [n.id] := hsrcp
      rcases List.mem_append.mp hsrcp2 with hsp | hsl
      · exact appearsBefore_append_last hsp hF1
      · have hsn : src = n.id := by simpa using hsl
        have hrel : EdgeRelG g src n.id :=
          ⟨pr, hprm, e, he, (hS pr hprm e he).symm.trans hesrc, hetgt⟩
        have hrel2 : EdgeRelG g n.id n.id := hsn ▸ hrel
        exact absurd Relation.ReflTransGen.refl (fun hcy => hA n.id n.id hrel2 hcy)
  · intro tgt p hch htgt
    have htgt2 : tgt ∈ s2.path ++ [n.id] := htgt
    rcases List.mem_append.mp htgt2 with htp | htl
    · obtain ⟨hsv, hbef⟩ := i3 tgt p hch htp
      refine ⟨hsv, ?_⟩
      intro hsrcp
      have hsrcp2 : p.2.id ∈ s2.path ++ [n.id] := hsrcp
      rcases List.mem_append.mp hsrcp2 with hsp | hsl
      · exact appearsBefore_append (hbef hsp) [n.id]
      · have hsn : p.2.id = n.id := by simpa using hsl
        have hpmem : p ∈ orIncoming g tgt := (chooseOr_min _ p hch).1
        have hrel : EdgeRelG g p.2.id tgt :=
          edgeRel_of_incoming (List.mem_filter.mp hpmem).1
        have hrel2 : EdgeRelG g n.id tgt := hsn ▸ hrel
        rcases hreach tgt htp with htin | hre
        · have hvis := (hInvS.2.2 tgt p hch htin).1
          rw [hsn] at hvis
          exact absurd hvis hv
        · exact absurd hre (fun hcy => hA n.id tgt hrel2 hcy)
    · have htn : tgt = n.id := by simpa using htl
      subst htn
      have hsv : p.2.id ∈ s2.visited := horv p hch
      refine ⟨hsv, ?_⟩
      intro hsrcp
      have hsrcp2 : p.2.id ∈ s2.path ++ [n.id] := hsrcp
      rcases List.mem_append.mp hsrcp2 with hsp | hsl
      · exact appearsBefore_append_last hsp hF1
      · have hsn : p.2.id = n.id := by simpa using hsl
        have hpmem : p ∈ orIncoming g n.id := (chooseOr_min _ p hch).1
        have hrel : EdgeRelG g p.2.id n.id :=
          edgeRel_of_incoming (List.mem_filter.mp hpmem).1
        have hrel2 : EdgeRelG g n.id n.id := hsn ▸ hrel
        exact absurd Relation.ReflTransGen.refl (fun hcy => hA n.id n.id hrel2 hcy)

theorem foldl_inv {g : KnowledgeGraph} (fuel : Nat)
    (IH : ∀ (n : Node) (s : DfsState), s.graph = g → (∃ k, (k, n) ∈ g.nodes) →
      unvisitedCount g s.visited + 1 ≤ fuel → Inv g s → Inv g (dfs fuel n s)) :
    ∀ (l : List (Edge × Node)) (s : DfsState), s.graph = g →
      (∀ q ∈ l, ∃ k, (k, q.2) ∈ g.nodes) →
      unvisitedCount g s.visited + 1 ≤ fuel →
      Inv g s → Inv g (l.foldl (fun st p => dfs fuel p.2 st) s) := by
  intro l
  induction l with
  | nil => intro s _ _ _ hInv; exact hInv
  | cons a l ih =>
    intro s hg hq hfuel hInv
    rw [List.foldl_cons]
    have hInv1 : Inv g (dfs fuel a.2 s) :=
      IH a.2 s hg (hq a (List.mem_cons_self a l)) hfuel hInv
    have hg1 : (dfs fuel a.2 s).graph = g := by
      rw [dfs_graph]
      exact hg
    have hfuel1 : unvisitedCount g (dfs fuel a.2 s).visited + 1 ≤ fuel := by
      have hmono : unvisitedCount g (dfs fuel a.2 s).visited ≤ unvisitedCount g s.visited :=
        unvisited_le_of_sub ((dfs_evolves fuel a.2 s).2.1)
      omega
    exact ih (dfs fuel a.2 s) hg1 (fun q hq2 => hq q (List.mem_cons_of_mem a hq2)) hfuel1 hInv1

theorem dfs_inv {g : KnowledgeGraph} (hK : KeysMatch g) (hS : SrcOwner g) (hA : Acyclic g) :
    ∀ (fuel : Nat) (n : Node) (s : DfsState), s.graph = g → (∃ k, (k, n) ∈ g.nodes) →
      unvisitedCount g s.visited + 1 ≤ fuel →
      Inv g s → Inv g (dfs fuel n s) := by
  intro fuel
  induction fuel with
  | zero =>
    intro n s _ _ hfuel _
    exact absurd hfuel (by simp)
  | succ fuel ihf =>
    intro n s hg hn hfuel hInv
    subst hg
    by_cases hv : n.id ∈ s.visited
    · rw [dfs_succ_visited fuel n s hv]
      exact hInv
    · have hnid : n.id ∈ keys s.graph := nodeInG_id_mem_keys hK hn
      have hpos : 1 ≤ unvisitedCount s.graph s.visited := unvisited_pos hnid hv
      have hlt : unvisitedCount s.graph (n.id :: s.visited) < unvisitedCount s.graph s.visited :=
        unvisited_lt hnid hv
      have hfe : 1 ≤ fuel := by omega
      have hfuel1 : unvisitedCount s.graph (n.id :: s.visited) + 1 ≤ fuel := by omega
      have hInv1 : Inv s.graph (⟨s.graph, n.id :: s.visited, s.path⟩ : DfsState) := by
        obtain ⟨h1, h2, h3⟩ := hInv
        refine ⟨fun x hx => List.mem_cons_of_mem _ (h1 x hx), ?_, ?_⟩
        · intro src tgt hdep htgt
          obtain ⟨ha2, hb2⟩ := h2 src tgt hdep htgt
          exact ⟨List.mem_cons_of_mem _ ha2, hb2⟩
        · intro tgt p hch htgt
          obtain ⟨ha2, hb2⟩ := h3 tgt p hch htgt
          exact ⟨List.mem_cons_of_mem _ ha2, hb2⟩
      cases hb : (notIncoming s.graph n.id).any
          (fun p => truthy (dataGet p.2.data "visited")) with
      | true =>
        rw [dfs_succ_blocked fuel n s hv hb]
        exact hInv1
      | false =>
        have hqand : ∀ q ∈ andIncoming s.graph n.id, ∃ k, (k, q.2) ∈ s.graph.nodes := by
          intro q hq
          exact (mem_incomingEdges.mp
            (show (q.1, q.2) ∈ _ from (List.mem_filter.mp hq).1)).1
        have handrel : ∀ q ∈ andIncoming s.graph n.id, EdgeRelG s.graph q.2.id n.id := by
          intro q hq
          exact edgeRel_of_incoming (List.mem_filter.mp hq).1
        set F := (andIncoming s.graph n.id).foldl (fun st p => dfs fuel p.2 st)
          ⟨s.graph, n.id :: s.visited, s.path⟩ with hF
        have hInv2 : Inv s.graph F :=
          foldl_inv fuel ihf (andIncoming s.graph n.id)
            ⟨s.graph, n.id :: s.visited, s.path⟩ rfl hqand hfuel1 hInv1
        have hev2 : Evolves ⟨s.graph, n.id :: s.visited, s.path⟩ F :=
          foldl_evolves (fun st p => dfs_evolves fuel p.2 st) _ _
        have hg2 : F.graph = s.graph := hev2.1
        have handv : ∀ q ∈ andIncoming s.graph n.id, q.2.id ∈ F.visited :=
          foldl_visits fuel hfe _ _
        have hreachF : ∀ x ∈ F.path, x ∈ s.path ∨ Reaches s.graph x n.id := by
          intro x hx
          exact foldl_path_reaches fuel (dfs_path_reaches fuel) n.id
            (andIncoming s.graph n.id) ⟨s.graph, n.id :: s.visited, s.path⟩ handrel x hx
        cases hc : chooseOr (orIncoming s.graph n.id) with
        | none =>
          rw [dfs_succ_unblocked_none fuel n s hv hb hc]
          refine inv_append hS hA hv hInv hInv2 hev2 hreachF handv ?_
          intro p hp
          rw [hp] at hc
          exact Option.noConfusion hc
        | some p =>
          rw [dfs_succ_unblocked_some fuel n s hv hb p hc]
          have hpor : p ∈ orIncoming s.graph n.id := (chooseOr_min _ p hc).1
          have hpin : ∃ k, (k, p.2) ∈ s.graph.nodes :=
            (mem_incomingEdges.mp
              (show (p.1, p.2) ∈ _ from (List.mem_filter.mp hpor).1)).1
          have hfuel2 : unvisitedCount s.graph F.visited + 1 ≤ fuel := by
            have hmono : unvisitedCount s.graph F.visited ≤
                unvisitedCount s.graph (n.id :: s.visited) :=
              unvisited_le_of_sub hev2.2.1
            omega
          have hInv3 : Inv s.graph (dfs fuel p.2 F) := ihf p.2 F hg2 hpin hfuel2 hInv2
          have hev3 : Evolves ⟨s.graph, n.id :: s.visited, s.path⟩ (dfs fuel p.2 F) :=
            evolves_trans hev2 (dfs_evolves fuel p.2 F)
          have handv3 : ∀ q ∈ andIncoming s.graph n.id, q.2.id ∈ (dfs fuel p.2 F).visited :=
            fun q hq => (dfs_evolves fuel p.2 F).2.1 _ (handv q hq)
          have horv3 : ∀ pp, chooseOr (orIncoming s.graph n.id) = some pp →
              pp.2.id ∈ (dfs fuel p.2 F).visited := by
            intro pp hpp
            rw [hc] at hpp
            have hppp : p = pp := Option.some.inj hpp
            subst hppp
            exact dfs_visits fuel p.2 F hfe
          have hrel : EdgeRelG s.graph p.2.id n.id :=
            edgeRel_of_incoming (List.mem_filter.mp hpor).1
          have hreach3 : ∀ x ∈ (dfs fuel p.2 F).path,
              x ∈ s.path ∨ Reaches s.graph x n.id := by
            intro x hx
            rcases dfs_path_reaches fuel p.2 F x hx with hx2 | hre
            · exact hreachF x hx2
            · rw [hg2] at hre
              exact Or.inr (Relation.ReflTransGen.tail hre hrel)
          exact inv_append hS hA hv hInv hInv3 hev3 hreach3 handv3 horv3

/-- Claim C1 counterexample: on the two-node IMPLIES cycle a <-> b,
resolving b yields the plan [a, b]; the IMPLIES edge from b to a has both
endpoint ids in the plan, yet its source b does not appear before its
target a — the claim's universally quantified ordering fails on cyclic
graphs. -/
theorem claim_C1_counterexample :
    DepAI cycleG "b" "a" ∧
    "b" ∈ traverse_for_goal cycleG "b" ∧
    "a" ∈ traverse_for_goal cycleG "b" ∧
    ¬ appearsBefore (traverse_for_goal cycleG "b") "b" "a" := by decide

/-- Claim C1 amended: over graphs satisfying the data-model invariants
(store key = node id, edges record their owner as source) and having no
directed cycle, the plan of resolve_plan is dependency-first: every
AND/IMPLIES edge with both endpoint ids in the plan has its source id
strictly before its target id, the chosen OR source of any resolved node
likewise precedes it, and a nonempty plan ends with the goal id (a blocked
or missing goal yields the empty plan). For the linear chain
A -IMPLIES-> B -IMPLIES-> C, resolving C yields exactly [A, B, C]. -/
theorem claim_C1_amended :
    (∀ (g : KnowledgeGraph) (goal_id : String), KeysMatch g → SrcOwner g → Acyclic g →
      (∀ src tgt, DepAI g src tgt →
        src ∈ traverse_for_goal g goal_id → tgt ∈ traverse_for_goal g goal_id →
        appearsBefore (traverse_for_goal g goal_id) src tgt) ∧
      (∀ tgt p, chooseOr (orIncoming g tgt) = some p →
        p.2.id ∈ traverse_for_goal g goal_id → tgt ∈ traverse_for_goal g goal_id →
        appearsBefore (traverse_for_goal g goal_id) p.2.id tgt) ∧
      (traverse_for_goal g goal_id ≠ [] →
        (traverse_for_goal g goal_id).getLast? = some goal_id)) ∧
    traverse_for_goal chainG "C" = ["A", "B", "C"] := by
  constructor
  · intro g goal_id hK hS hA
    unfold traverse_for_goal resolveState
    cases hget : get_node g goal_id with
    | none =>
      refine ⟨?_, ?_, ?_⟩
      · intro src tgt _ hsrc _
        exact absurd hsrc (List.not_mem_nil src)
      · intro tgt p _ hsrc _
        exact absurd hsrc (List.not_mem_nil p.2.id)
      · intro hne
        exact absurd rfl hne
    | some n =>
      have hfind := get_node_some_iff.mp hget
      have hn : ∃ k, (k, n) ∈ g.nodes := ⟨goal_id, List.mem_of_find?_eq_some hfind⟩
      have hInv0 : Inv g ⟨g, [], []⟩ := by
        refine ⟨?_, ?_, ?_⟩
        · intro x hx
          exact absurd hx (List.not_mem_nil x)
        · intro src tgt _ htgt
          exact absurd htgt (List.not_mem_nil tgt)
        · intro tgt p _ htgt
          exact absurd htgt (List.not_mem_nil tgt)
      have hfuel : unvisitedCount g [] + 1 ≤ g.nodes.length + 1 := by
        have h1 : unvisitedCount g [] ≤ (keys g).length := List.length_filter_le _ _
        have h2 : (keys g).length = g.nodes.length := List.length_map _ _
        omega
      have hInvF := dfs_inv hK hS hA (g.nodes.length + 1) n ⟨g, [], []⟩ rfl hn hfuel hInv0
      refine ⟨?_, ?_, ?_⟩
      · intro src tgt hdep hsrc htgt
        exact (hInvF.2.1 src tgt hdep htgt).2 hsrc
      · intro tgt p hch hsrc htgt
        exact (hInvF.2.2 tgt p hch htgt).2 hsrc
      · intro hne
        have hgoal : n.id = goal_id := hK (goal_id, n) (List.mem_of_find?_eq_some hfind)
        rcases dfs_last (g.nodes.length + 1) n ⟨g, [], []⟩ with hsame | ⟨X, hX⟩
        · exact absurd hsame hne
        · rw [hX, List.getLast?_concat, hgoal]
  · decide

theorem claim_C1_amended_witness :
    ((∀ src tgt, DepAI chainG src tgt →
        src ∈ traverse_for_goal chainG "C" → tgt ∈ traverse_for_goal chainG "C" →
        appearsBefore (traverse_for_goal chainG "C") src tgt) ∧
      (∀ tgt p, chooseOr (orIncoming chainG tgt) = some p →
        p.2.id ∈ traverse_for_goal chainG "C" → tgt ∈ traverse_for_goal chainG "C" →
        appearsBefore (traverse_for_goal chainG "C") p.2.id tgt) ∧
      (traverse_for_goal chainG "C" ≠ [] →
        (traverse_for_goal chainG "C").getLast? = some "C")) ∧
    traverse_for_goal chainG "C" = ["A", "B", "C"] :=
  ⟨claim_C1_amended.1 chainG "C" (by decide) (by decide)
      (acyclic_of_rank (fun x => if x = "A" then 0 else if x = "B" then 1 else 2)
        (by
          intro a b hrel
          obtain ⟨p, hp, e, he, hpa, het⟩ := hrel
          simp only [chainG, List.mem_cons, List.not_mem_nil, or_false] at hp
          rcases hp with rfl | rfl | rfl <;>
            simp only [List.mem_cons, List.not_mem_nil, or_false] at he <;>
            (rcases he with rfl; rw [← hpa, ← het]; decide))),
   claim_C1_amended.2⟩

theorem edgeTypeOfString_value (t : EdgeType) : edgeTypeOfString t.value = some t := by
  cases t <;> decide

theorem load_nodes_closed :
    ∀ (ns : List SavedNode) (acc : KnowledgeGraph),
      (∀ x ∈ ns, x.id ∉ keys acc) → (ns.map SavedNode.id).Nodup →
      ns.foldl (fun gg nn => (add_node gg nn.id nn.type nn.data).1) acc =
        ⟨acc.nodes ++ ns.map (fun nn => (nn.id, ⟨nn.id, nn.type, nn.data, []⟩))⟩ := by
  intro ns
  induction ns with
  | nil =>
    intro acc _ _
    cases acc with
    | mk l => simp
  | cons x ns ih =>
    intro acc hfresh hnd
    rw [List.foldl_cons]
    have hnotin : get_node acc x.id = none := by
      unfold get_node
      rw [List.find?_eq_none.mpr ?_]
      · rfl
      · intro q hq hbeq
        simp only [beq_iff_eq] at hbeq
        exact hfresh x (List.mem_cons_self _ _) (hbeq ▸ List.mem_map_of_mem Prod.fst hq)
    have hstep : (add_node acc x.id x.type x.data).1 =
        ⟨acc.nodes ++ [(x.id, ⟨x.id, x.type, x.data, []⟩)]⟩ := by
      unfold add_node
      rw [hnotin]
    rw [hstep, ih _ ?_ ?_]
    · simp
    · intro q hq hmem
      unfold keys at hmem
      rw [List.map_append] at hmem
      rcases List.mem_append.mp hmem with h1 | h2
      · exact hfresh q (List.mem_cons_of_mem _ hq) h1
      · have hq1 : q.id = x.id := by simpa using h2
        have hx : x.id ∉ ns.map SavedNode.id := (List.nodup_cons.mp hnd).1
        exact hx (hq1 ▸ List.mem_map_of_mem SavedNode.id hq)
    · exact (List.nodup_cons.mp hnd).2

theorem get_node_after_keyed_map {h : KnowledgeGraph} {u : String × Node → Node}
    {i j : String} {n : Node} (hn : get_node h j = some n) :
    get_node ⟨h.nodes.map (fun p => if p.1 == i then (p.1, u p) else p)⟩ j =
      some (if (j == i) = true then u (j, n) else n) := by
  unfold get_node
  rw [find?_keyed_map, get_node_some_iff.mp hn]
  by_cases hj : (j == i) = true
  · have hj2 : j = i := by simpa using hj
    simp [hj, hj2]
  · have hj2 : ¬ j = i := by simpa using hj
    simp [hj, hj2]

theorem restoredEdges_cons_pos {e : SavedEdge} {rest : List SavedEdge} {k : String}
    {ty : EdgeType} (hq : (e.source == k) = true)
    (hty : edgeTypeOfString e.type = some ty) :
    restoredEdges (e :: rest) k = ⟨e.source, e.target, ty⟩ :: restoredEdges rest k := by
  unfold restoredEdges
  rw [@List.filter_cons_of_pos _ (fun e2 => e2.source == k) e rest hq, List.filterMap_cons]
  simp [hty]

theorem restoredEdges_cons_neg {e : SavedEdge} {rest : List SavedEdge} {k : String}
    (hq : ¬(e.source == k) = true) :
    restoredEdges (e :: rest) k = restoredEdges rest k := by
  unfold restoredEdges
  rw [@List.filter_cons_of_neg _ (fun e2 => e2.source == k) e rest hq]

theorem loadEdges_closed :
    ∀ (es : List SavedEdge) (h : KnowledgeGraph),
      (∀ e ∈ es,
        (∃ ty, edgeTypeOfString e.type = some ty) ∧
        (∃ n, get_node h e.source = some n ∧ n.id = e.source) ∧
        (∃ n, get_node h e.target = some n ∧ n.id = e.target)) →
      ∃ g2, loadEdges es h = some g2 ∧
        g2.nodes = h.nodes.map (fun p =>
          (p.1, { p.2 with edges := p.2.edges ++ restoredEdges es p.1 })) := by
  intro es
  induction es with
  | nil =>
    intro h _
    refine ⟨h, rfl, ?_⟩
    have hpt : ∀ p ∈ h.nodes,
        ((p.1, { p.2 with edges := p.2.edges ++ restoredEdges [] p.1 }) : String × Node) = p := by
      intro p _
      show ((p.1, { p.2 with edges := p.2.edges ++ [] }) : String × Node) = p
      rw [List.append_nil]
    rw [List.map_congr_left hpt, List.map_id']
  | cons e rest ih =>
    intro h hyp
    obtain ⟨⟨ty, hty⟩, ⟨sn, hsn, hsnid⟩, ⟨tn, htn, htnid⟩⟩ := hyp e (List.mem_cons_self _ _)
    have hstep : loadEdges (e :: rest) h = loadEdges rest
        ⟨h.nodes.map (fun p => if p.1 == e.source then
          (p.1, { p.2 with edges := p.2.edges ++ [⟨sn.id, tn.id, ty⟩] }) else p)⟩ := by
      conv_lhs => rw [loadEdges]
      rw [hty]
      show (match add_edge h e.source e.target ty with
        | none => none
        | some g2 => loadEdges rest g2) = _
      unfold add_edge
      rw [hsn, htn]
    have hyp2 : ∀ e2 ∈ rest,
        (∃ ty2, edgeTypeOfString e2.type = some ty2) ∧
        (∃ n, get_node ⟨h.nodes.map (fun p => if p.1 == e.source then
          (p.1, { p.2 with edges := p.2.edges ++ [⟨sn.id, tn.id, ty⟩] }) else p)⟩ e2.source =
            some n ∧ n.id = e2.source) ∧
        (∃ n, get_node ⟨h.nodes.map (fun p => if p.1 == e.source then
          (p.1, { p.2 with edges := p.2.edges ++ [⟨sn.id, tn.id, ty⟩] }) else p)⟩ e2.target =
            some n ∧ n.id = e2.target) := by
      intro e2 he2
      obtain ⟨hpar, ⟨n2, hn2, hid2⟩, ⟨n3, hn3, hid3⟩⟩ := hyp e2 (List.mem_cons_of_mem _ he2)
      refine ⟨hpar, ⟨_, get_node_after_keyed_map hn2, ?_⟩,
        ⟨_, get_node_after_keyed_map hn3, ?_⟩⟩
      · by_cases hq : (e2.source == e.source) = true <;> simp [hq, hid2]
      · by_cases hq : (e2.target == e.source) = true <;> simp [hq, hid3]
    obtain ⟨g2, hload, hclosed⟩ := ih _ hyp2
    refine ⟨g2, by rw [hstep]; exact hload, ?_⟩
    rw [hclosed]
    rw [List.map_map]
    apply List.map_congr_left
    intro p _
    simp only [Function.comp_apply]
    by_cases hq : (p.1 == e.source) = true
    · have hqs : (e.source == p.1) = true := by
        simp only [beq_iff_eq] at hq ⊢
        exact hq.symm
      rw [if_pos hq]
      have hedge : (p.2.edges ++ [(⟨sn.id, tn.id, ty⟩ : Edge)]) ++ restoredEdges rest p.1 =
          p.2.edges ++ restoredEdges (e :: rest) p.1 := by
        rw [restoredEdges_cons_pos hqs hty, hsnid, htnid, List.append_assoc]
        rfl
      exact congrArg (fun L => ((p.1, (⟨p.2.id, p.2.type, p.2.data, L⟩ : Node))
        : String × Node)) hedge
    · have hqs : ¬(e.source == p.1) = true := by
        simp only [beq_iff_eq] at hq ⊢
        exact fun hc => hq hc.symm
      rw [if_neg hq]
      have hedge : restoredEdges (e :: rest) p.1 = restoredEdges rest p.1 :=
        restoredEdges_cons_neg hqs
      exact (congrArg (fun L => ((p.1, (⟨p.2.id, p.2.type, p.2.data, p.2.edges ++ L⟩ : Node))
        : String × Node)) hedge).symm

theorem savedEdges_filter_key (k : String) :
    ∀ (l : List (String × Node)), (l.map Prod.fst).Nodup →
      (∀ p ∈ l, ∀ e ∈ p.2.edges, e.source = p.1) →
      (((l.map Prod.snd).flatMap (fun nd =>
        nd.edges.map (fun e => (⟨e.source, e.target, e.type.value⟩ : SavedEdge)))).filter
          (fun se => se.source == k)) =
        ((l.find? (fun p => p.1 == k)).elim [] (fun p => p.2.edges.map
          (fun e => (⟨e.source, e.target, e.type.value⟩ : SavedEdge)))) := by
  intro l
  induction l with
  | nil => intro _ _; rfl
  | cons p l ih =>
    intro hnd hsrc
    rw [List.map_cons, List.flatMap_cons, List.filter_append]
    rw [List.map_cons] at hnd
    have hnd2 := List.nodup_cons.mp hnd
    by_cases hpk : (p.1 == k) = true
    · have hhead : (p.2.edges.map (fun e =>
          (⟨e.source, e.target, e.type.value⟩ : SavedEdge))).filter
            (fun se => se.source == k) =
          p.2.edges.map (fun e => (⟨e.source, e.target, e.type.value⟩ : SavedEdge)) := by
        refine List.filter_eq_self.mpr ?_
        intro se hse
        obtain ⟨e, he, rfl⟩ := List.mem_map.mp hse
        show (e.source == k) = true
        simp only [beq_iff_eq] at hpk ⊢
        rw [hsrc p (List.mem_cons_self _ _) e he, hpk]
      have htail : ((l.map Prod.snd).flatMap (fun nd =>
          nd.edges.map (fun e => (⟨e.source, e.target, e.type.value⟩ : SavedEdge)))).filter
            (fun se => se.source == k) = [] := by
        refine List.filter_eq_nil_iff.mpr ?_
        intro se hse
        obtain ⟨nd, hndm, hse2⟩ := List.mem_flatMap.mp hse
        obtain ⟨q, hq, hqnd⟩ := List.mem_map.mp hndm
        obtain ⟨e, he, rfl⟩ := List.mem_map.mp hse2
        show ¬(e.source == k) = true
        simp only [beq_iff_eq]
        intro hc
        have hes : e.source = q.1 := by
          rw [← hqnd] at he
          exact hsrc q (List.mem_cons_of_mem _ hq) e he
        have hqk : q.1 = k := hes ▸ hc
        simp only [beq_iff_eq] at hpk
        exact hnd2.1 (hpk ▸ hqk ▸ List.mem_map_of_mem Prod.fst hq)
      rw [hhead, htail, List.append_nil]
      rw [@List.find?_cons_of_pos _ (fun q => q.1 == k) p l hpk]
      rfl
    · have hhead : (p.2.edges.map (fun e =>
          (⟨e.source, e.target, e.type.value⟩ : SavedEdge))).filter
            (fun se => se.source == k) = [] := by
        refine List.filter_eq_nil_iff.mpr ?_
        intro se hse
        obtain ⟨e, he, rfl⟩ := List.mem_map.mp hse
        show ¬(e.source == k) = true
        simp only [beq_iff_eq] at hpk ⊢
        intro hc
        exact hpk ((hsrc p (List.mem_cons_self _ _) e he) ▸ hc)
      rw [hhead, List.nil_append]
      rw [@List.find?_cons_of_neg _ (fun q => q.1 == k) p l hpk]
      exact ih hnd2.2 (fun q hq => hsrc q (List.mem_cons_of_mem _ hq))

theorem filterMap_mk_saved (edges : List Edge) :
    (edges.map (fun e => (⟨e.source, e.target, e.type.value⟩ : SavedEdge))).filterMap
      (fun se => (edgeTypeOfString se.type).map
        (fun ty => (⟨se.source, se.target, ty⟩ : Edge))) = edges := by
  induction edges with
  | nil => rfl
  | cons e rest ih =>
    rw [List.map_cons, List.filterMap_cons]
    have hp : edgeTypeOfString (⟨e.source, e.target, e.type.value⟩ : SavedEdge).type =
        some e.type := edgeTypeOfString_value e.type
    simp only [hp, Option.map_some']
    rw [ih]

theorem restored_saved_eq {g : KnowledgeGraph} (hU : UniqueKeys g)
    (hsrc2 : ∀ p ∈ g.nodes, ∀ e ∈ p.2.edges, e.source = p.1)
    {p : String × Node} (hp : p ∈ g.nodes) :
    restoredEdges ((g.nodes.map Prod.snd).flatMap (fun nd =>
      nd.edges.map (fun e0 => (⟨e0.source, e0.target, e0.type.value⟩ : SavedEdge)))) p.1 =
      p.2.edges := by
  unfold restoredEdges
  rw [savedEdges_filter_key p.1 g.nodes hU hsrc2,
    find?_key_unique g.nodes hU (show (p.1, p.2) ∈ g.nodes by simpa using hp)]
  exact filterMap_mk_saved p.2.edges

/-- Claim C4: the persistence codec is lossless. Under the data-model
invariants (unique node ids, key = node id, edges record their owning node
as source, every edge target present), loading the document produced by
save yields a graph equal to the original — resolve_plan on the loaded
graph therefore agrees with the original for every goal id. -/
theorem claim_C4 (g : KnowledgeGraph) (hU : UniqueKeys g) (hK : KeysMatch g)
    (hS : SrcOwner g) (hT : TargetsPresent g) :
    ∃ g2, load_from_json (save_to_json g) = some g2 ∧
      (∀ goal_id, traverse_for_goal g2 goal_id = traverse_for_goal g goal_id) ∧ g2 = g := by
  have hsrc2 : ∀ p ∈ g.nodes, ∀ e ∈ p.2.edges, e.source = p.1 := by
    intro p hp e he
    rw [hS p hp e he]
    exact hK p hp
  have hn1 : (g.nodes.map (fun p => (⟨p.2.id, p.2.type, p.2.data⟩ : SavedNode))).foldl
      (fun gg nn => (add_node gg nn.id nn.type nn.data).1) ⟨[]⟩ =
      ⟨g.nodes.map (fun p => (p.1, ⟨p.1, p.2.type, p.2.data, []⟩))⟩ := by
    rw [load_nodes_closed _ _ ?_ ?_]
    · congr 1
      rw [List.nil_append, List.map_map]
      apply List.map_congr_left
      intro p hp
      show ((p.2.id, (⟨p.2.id, p.2.type, p.2.data, []⟩ : Node)) : String × Node) = _
      rw [hK p hp]
    · intro x _ hmem
      simp [keys] at hmem
    · rw [List.map_map]
      have hcomp : (SavedNode.id ∘ fun p : String × Node =>
          (⟨p.2.id, p.2.type, p.2.data⟩ : SavedNode)) = fun p : String × Node => p.2.id := rfl
      rw [hcomp, List.map_congr_left (fun p hp => hK p hp)]
      exact hU
  have hU1 : UniqueKeys (⟨g.nodes.map (fun p => (p.1, ⟨p.1, p.2.type, p.2.data, []⟩))⟩ :
      KnowledgeGraph) := by
    unfold UniqueKeys keys
    rw [List.map_map]
    exact hU
  have hedges_hyp : ∀ e ∈ (g.nodes.map Prod.snd).flatMap (fun nd =>
      nd.edges.map (fun e0 => (⟨e0.source, e0.target, e0.type.value⟩ : SavedEdge))),
      (∃ ty, edgeTypeOfString e.type = some ty) ∧
      (∃ n, get_node (⟨g.nodes.map (fun p => (p.1, ⟨p.1, p.2.type, p.2.data, []⟩))⟩ :
        KnowledgeGraph) e.source = some n ∧ n.id = e.source) ∧
      (∃ n, get_node (⟨g.nodes.map (fun p => (p.1, ⟨p.1, p.2.type, p.2.data, []⟩))⟩ :
        KnowledgeGraph) e.target = some n ∧ n.id = e.target) := by
    intro e he
    obtain ⟨nd, hndm, he2⟩ := List.mem_flatMap.mp he
    obtain ⟨q, hq, hqnd⟩ := List.mem_map.mp hndm
    obtain ⟨e0, he0, rfl⟩ := List.mem_map.mp he2
    have he0q : e0 ∈ q.2.edges := by
      rw [← hqnd] at he0
      exact he0
    refine ⟨⟨e0.type, edgeTypeOfString_value e0.type⟩, ?_, ?_⟩
    · have hsq : e0.source = q.1 := hsrc2 q hq e0 he0q
      refine ⟨⟨q.1, q.2.type, q.2.data, []⟩, ?_, by rw [hsq]⟩
      rw [hsq]
      exact get_node_of_mem_unique hU1 (List.mem_map_of_mem _ hq)
    · obtain ⟨r, hr, hrt⟩ := hT q hq e0 he0q
      refine ⟨⟨r.1, r.2.type, r.2.data, []⟩, ?_, by rw [hrt]⟩
      rw [← hrt]
      exact get_node_of_mem_unique hU1 (List.mem_map_of_mem _ hr)
  obtain ⟨g2, hload, hclosed⟩ := loadEdges_closed _ _ hedges_hyp
  have hg2g : g2 = g := by
    cases g2 with
    | mk l2 =>
      congr 1
      show l2 = g.nodes
      have hl2 : l2 = _ := hclosed
      rw [hl2, List.map_map]
      refine (List.map_congr_left ?_).trans (List.map_id' g.nodes)
      intro p hp
      simp only [Function.comp_apply]
      rw [List.nil_append]
      rw [restored_saved_eq hU hsrc2 hp]
      obtain ⟨k, nd⟩ := p
      obtain ⟨nid, nty, ndata, nedges⟩ := nd
      have hid : nid = k := hK _ hp
      subst hid
      rfl
  refine ⟨g, ?_, fun _ => rfl, rfl⟩
  show load_from_json (save_to_json g) = some g
  unfold load_from_json save_to_json
  show loadEdges _ ((g.nodes.map (fun p => (⟨p.2.id, p.2.type, p.2.data⟩ : SavedNode))).foldl
    (fun gg nn => (add_node gg nn.id nn.type nn.data).1) ⟨[]⟩) = some g
  rw [hn1, hload, hg2g]

theorem claim_C4_witness :
    ∃ g2, load_from_json (save_to_json orG) = some g2 ∧
      (∀ goal_id, traverse_for_goal g2 goal_id = traverse_for_goal orG goal_id) ∧ g2 = orG :=
  claim_C4 orG (by decide) (by decide) (by decide) (by decide)

end Neuro
